import Mathlib

/-!
Verification development for the adversarial game-tree search engine
(`alpha_beta_prunning.py` and `minimax_adversary.py`).

The engine is shallowly embedded:

* Python floats carrying utilities and the `float('-inf')` / `float('inf')`
  sentinels are modelled by `EV := WithBot (WithTop ℚ)`; finite utilities are
  rationals, `⊥` is `-inf` and `⊤` is `+inf`.
* The abstract `Game` class becomes a structure of five operations; the
  engine only ever queries `utility` behind an `is_terminal` guard, so the
  structure field is total, while the demonstration game's checked utility
  (which raises on non-terminal states) is modelled separately by
  `nim_utility`, returning `none` for the raise.
* Python's unbounded recursion is modelled with an explicit fuel parameter,
  consumed once per ply.  The alpha-beta engine is total (fuel exhaustion
  yields the sentinel `(⊥, none)`), the adversary-parameterized engine is
  `Option`-valued: `none` models a raised exception (or fuel exhaustion).
* The two mutually recursive evaluators of each engine are packaged as a
  single fuel-indexed function over a Boolean node polarity (`true` for the
  maximizing evaluation, `false` for the minimizing one) so that all
  definitions are structurally recursive and kernel-computable;
  `max_value` / `min_value` etc. are the two instantiations.
-/

namespace GameSearch

/-- The two players of the demonstration game (`'A'` and `'B'` in the source). -/
inductive Player where
  | A
  | B
deriving DecidableEq

/-- Extended value: a Python float that is either `-inf` (`⊥`), a finite
rational, or `+inf` (`⊤`). -/
abbrev EV : Type := WithBot (WithTop ℚ)

/-- A finite utility viewed as an extended value. -/
def evOf (q : ℚ) : EV := ((q : WithTop ℚ) : EV)

/-- The abstract two-player, deterministic, perfect-information, zero-sum
game interface (class `Game` in both source files). `utility` is only ever
invoked by the engine behind the `is_terminal` guard. -/
structure Game (σ α π : Type) where
  actions : σ → List α
  result : σ → α → σ
  is_terminal : σ → Bool
  utility : σ → π → ℚ
  to_move : σ → π

variable {σ α π : Type}

/-- The name `terminal_test` is what the second source file gives to the
terminality predicate; both files describe the same contract. -/
def Game.terminal_test (g : Game σ α π) : σ → Bool :=
  g.is_terminal

/-!
## Alpha-beta pruning search (`alpha_beta_prunning.py`)

`maxLoop` is the `for` loop of `max_value`: it tracks the incumbent value
`v` and move `best`, updates them on a strict improvement (`v2 > v`),
returns early once `v >= beta` (beta cutoff) and otherwise raises `alpha`
to `max alpha v` before the next iteration.  `minLoop` is the symmetric
loop of `min_value`.  The recursive evaluation of a child is abstracted as
`child`, which receives the current window bound.
-/

/-- The action loop of the source's `max_value`. -/
def maxLoop (child : EV → α → EV) (beta : EV) :
    List α → EV → EV → Option α → EV × Option α
  | [], _alpha, v, best => (v, best)
  | a :: rest, alpha, v, best =>
    let v2 := child alpha a
    let v' := if v2 > v then v2 else v
    let best' := if v2 > v then some a else best
    if beta ≤ v' then (v', best')
    else maxLoop child beta rest (max alpha v') v' best'

/-- The action loop of the source's `min_value`. -/
def minLoop (child : EV → α → EV) (alpha : EV) :
    List α → EV → EV → Option α → EV × Option α
  | [], _beta, v, best => (v, best)
  | a :: rest, beta, v, best =>
    let v2 := child beta a
    let v' := if v2 < v then v2 else v
    let best' := if v2 < v then some a else best
    if v' ≤ alpha then (v', best')
    else minLoop child alpha rest (min beta v') v' best'

/-- The mutually recursive pair `max_value` / `min_value` of
`alpha_beta_prunning.py`, packaged over the node polarity `isMax` and an
explicit fuel (one unit per ply; exhaustion returns the sentinel pair). -/
def abVal (g : Game σ α π) (player : π) :
    ℕ → Bool → σ → EV → EV → EV × Option α
  | 0, _, _, _, _ => (⊥, none)
  | fuel + 1, isMax, s, alpha, beta =>
    if g.is_terminal s then (evOf (g.utility s player), none)
    else if isMax then
      maxLoop (fun al a => (abVal g player fuel false (g.result s a) al beta).1)
        beta (g.actions s) alpha ⊥ none
    else
      minLoop (fun bt a => (abVal g player fuel true (g.result s a) alpha bt).1)
        alpha (g.actions s) beta ⊤ none

/-- Embedding of `max_value(game, state, player, alpha, beta)` from
`alpha_beta_prunning.py`. -/
def max_value (g : Game σ α π) (player : π) (fuel : ℕ) (s : σ)
    (alpha beta : EV) : EV × Option α :=
  abVal g player fuel true s alpha beta

/-- Embedding of `min_value(game, state, player, alpha, beta)` from
`alpha_beta_prunning.py`. -/
def min_value (g : Game σ α π) (player : π) (fuel : ℕ) (s : σ)
    (alpha beta : EV) : EV × Option α :=
  abVal g player fuel false s alpha beta

/-- Embedding of `alpha_beta_search(game, state)`: it fixes `player := game.to_move(state)`,
evaluates the root as a maximizing node over the full window
`(-inf, +inf)` and returns only the move. -/
def alpha_beta_search (g : Game σ α π) (fuel : ℕ) (s : σ) : Option α :=
  (max_value g (g.to_move s) fuel s ⊥ ⊤).2

/-!
## The demonstration game (`NimGame` in both source files)

States are pairs `(tokens, player to move)` with Python-integer tokens
(so `ℤ`), actions are the number of tokens taken.
-/

/-- Embedding of `NimGame.actions`: `[1, ..., min(max_take, tokens)]`
(empty when `min(max_take, tokens) <= 0`). -/
def nim_actions (max_take : ℤ) (s : ℤ × Player) : List ℤ :=
  (List.range (min max_take s.1).toNat).map (fun (i : ℕ) => (i : ℤ) + 1)

/-- Embedding of `NimGame.utility`, including its guard: on a state with a nonzero token
count it raises `ValueError` (modelled as `none`); on a terminal state the
player who cannot move loses, the winner scores `1` and the loser `-1`. -/
def nim_utility (s : ℤ × Player) (player : Player) : Option ℚ :=
  if s.1 ≠ 0 then none
  else
    let loser := s.2
    let winner := if loser = Player.A then Player.B else Player.A
    some (if winner = player then 1 else -1)

/-- The `NimGame(max_take)` instance of the game interface (identical in
both source files up to the `is_terminal` / `terminal_test` method name).
The `utility` field extracts the checked `nim_utility`; the engine only
queries it on terminal states, where `nim_utility` is `some`. -/
def NimGame (max_take : ℤ) : Game (ℤ × Player) ℤ Player where
  actions := nim_actions max_take
  result := fun s a =>
    (s.1 - a, if s.2 = Player.A then Player.B else Player.A)
  is_terminal := fun s => s.1 == 0
  utility := fun s p => (nim_utility s p).getD 0
  to_move := fun s => s.2

/-!
## Adversary strategies (`minimax_adversary.py`)

`choose_action` receives the state, the legal actions, the game, the
evaluator callback (which scores a hypothetical resulting state and, being
a slice of the fallible engine, returns `Option EV`) and the player to
move.  Its result is an `Option (Option α)`: the outer `none` models a
raised exception inside `choose_action` (a failing evaluator call, or
`random.choice` on an empty list), `some none` models a normal return of
Python `None`, and `some (some a)` a normal return of the action `a`.
-/

/-- The adversary-strategy interface (class `Adversary` in the source). -/
structure Adversary (σ α π : Type) where
  choose_action :
    σ → List α → Game σ α π → (σ → Option EV) → π → Option (Option α)

variable {σ α π : Type}

/-- The argmin loop shared by `OptimalAdversary.choose_action`:
`best_action` starts as `None`, `best_value` as `+inf`, and each action
whose (fallible) score is strictly below the best seen so far becomes the
new incumbent.  A failing score aborts the whole loop (`none`). -/
def argminE (f : α → Option EV) : List α → Option α → EV → Option (Option α)
  | [], best, _ => some best
  | a :: rest, best, bv =>
    match f a with
    | none => none
    | some val =>
      if val < bv then argminE f rest (some a) val
      else argminE f rest best bv

/-- The argmin loop of `HeuristicAdversary.choose_action`; the heuristic
call cannot raise, so the loop never fails. -/
def argminH (f : α → EV) : List α → Option α → EV → Option α
  | [], best, _ => best
  | a :: rest, best, bv =>
    let val := f a
    if val < bv then argminH f rest (some a) val
    else argminH f rest best bv

/-- Embedding of `OptimalAdversary`: it evaluates `evaluator(game.result(state, a))` for each
action and keeps the one with the strictly lowest score (first seen wins
ties); on an empty list it returns `None`. -/
def OptimalAdversary : Adversary σ α π where
  choose_action := fun s acts g evaluator _opponent =>
    argminE (fun a => evaluator (g.result s a)) acts none ⊤

/-- Embedding of `RandomAdversary`, that is `random.choice(actions)`.  The parameter `k` models
the draw of the implicit entropy source (any concrete run corresponds to
some `k`); `random.choice` raises `IndexError` on an empty sequence, and
otherwise returns the element at the drawn index. -/
def RandomAdversary (k : ℕ) : Adversary σ α π where
  choose_action := fun _s acts _g _evaluator _opponent =>
    match acts with
    | [] => none
    | a :: rest =>
      some (some ((a :: rest).get ⟨k % (a :: rest).length, Nat.mod_lt _ (Nat.succ_pos _)⟩))

/-- Embedding of `HeuristicAdversary(heuristic)`: like the optimal adversary but scoring
each resulting state with the caller-supplied heuristic instead of the
engine's evaluator.  The heuristic is an arbitrary `Callable[[Any], float]`,
so its scores range over the full float model `EV`, infinities included. -/
def HeuristicAdversary (heuristic : σ → EV) : Adversary σ α π where
  choose_action := fun s acts g _evaluator _opponent =>
    some (argminH (fun a => heuristic (g.result s a)) acts none ⊤)

/-!
## Minimax with adversary (`minimax_decision` and its nested
`max_value` / `min_value`)

The nested evaluators are `Option EV`-valued: `none` models a raised
exception — `utility` on fuel exhaustion never happens here since the fuel
is the only non-source ingredient, but a supplied adversary can raise, and
when it returns `None` the engine feeds `None` into `game.result`, an
illegal-action contract violation that raises for the demonstration game
(`tokens - None` is a `TypeError`); both are modelled as `none`, as is fuel
exhaustion itself.
-/

/-- The update `v = max(v, min_value(...))` threaded over the action list, aborting on
a failing child. -/
def foldMaxM (f : α → Option EV) : List α → EV → Option EV
  | [], v => some v
  | a :: rest, v =>
    match f a with
    | none => none
    | some v2 => foldMaxM f rest (max v v2)

/-- The update `v = min(v, max_value(...))` threaded over the action list, aborting on
a failing child. -/
def foldMinM (f : α → Option EV) : List α → EV → Option EV
  | [], v => some v
  | a :: rest, v =>
    match f a with
    | none => none
    | some v2 => foldMinM f rest (min v v2)

/-- The nested `max_value` / `min_value` pair of `minimax_decision`,
packaged over the node polarity `isMax` with explicit fuel.  The
maximizing evaluation folds `max` over all children; the minimizing
evaluation either folds `min` (no adversary) or delegates the choice to
the adversary and evaluates the single chosen child. -/
def mmVal (g : Game σ α π) (adv : Option (Adversary σ α π)) (player : π) :
    ℕ → Bool → σ → Option EV
  | 0, _, _ => none
  | fuel + 1, isMax, s =>
    if g.terminal_test s then some (evOf (g.utility s player))
    else if isMax then
      foldMaxM (fun a => mmVal g adv player fuel false (g.result s a))
        (g.actions s) ⊥
    else
      match adv with
      | none =>
        foldMinM (fun a => mmVal g adv player fuel true (g.result s a))
          (g.actions s) ⊤
      | some adversary =>
        match adversary.choose_action s (g.actions s) g
            (fun st => mmVal g adv player fuel true st) (g.to_move s) with
        | none => none
        | some none => none
        | some (some chosen) => mmVal g adv player fuel true (g.result s chosen)

/-- The nested `max_value(s)` of `minimax_decision`. -/
def mmMax (g : Game σ α π) (adv : Option (Adversary σ α π)) (player : π)
    (fuel : ℕ) (s : σ) : Option EV :=
  mmVal g adv player fuel true s

/-- The nested `min_value(s)` of `minimax_decision`. -/
def mmMin (g : Game σ α π) (adv : Option (Adversary σ α π)) (player : π)
    (fuel : ℕ) (s : σ) : Option EV :=
  mmVal g adv player fuel false s

/-- The root loop of `minimax_decision`: `best_value` starts at `-inf`,
`best_action` at `None`, and an action strictly improving on `best_value`
replaces the incumbent. -/
def mmRootLoop (f : α → Option EV) :
    List α → EV → Option α → Option (EV × Option α)
  | [], bv, ba => some (bv, ba)
  | a :: rest, bv, ba =>
    match f a with
    | none => none
    | some val =>
      if val > bv then mmRootLoop f rest val (some a)
      else mmRootLoop f rest bv ba

/-- Embedding of `minimax_decision`, exposing the internal `(best_value, best_action)`
pair accumulated by its root loop. -/
def mmDecisionPair (g : Game σ α π) (player : π)
    (adv : Option (Adversary σ α π)) : ℕ → σ → Option (EV × Option α)
  | 0, _ => none
  | fuel + 1, s =>
    mmRootLoop (fun a => mmMin g adv player fuel (g.result s a))
      (g.actions s) ⊥ none

/-- Embedding of `minimax_decision(state, game, player, adversary)`: it returns only
`best_action` (possibly Python `None`, hence the inner `Option`). -/
def minimax_decision (g : Game σ α π) (player : π)
    (adv : Option (Adversary σ α π)) (fuel : ℕ) (s : σ) : Option (Option α) :=
  (mmDecisionPair g player adv fuel s).map (fun p => p.2)

/-!
## Concrete fixture games

Two tiny concrete game models used to instantiate the generic theorems:
`simpleTakeOne` is conforming (every non-terminal state, at any integer
token count, has a move), `stuckGame` has a single non-terminal,
action-less state and exercises the empty-action-set edge case discussed
by the design's error-handling section.
-/

/-- A conforming take-one-token game: terminal exactly when the count is
zero, and every non-terminal state (including negative counts) has the
single move `1`. -/
def simpleTakeOne : Game (ℤ × Player) ℤ Player where
  actions := fun s => if s.1 == 0 then [] else [1]
  result := fun s a =>
    (s.1 - a, if s.2 = Player.A then Player.B else Player.A)
  is_terminal := fun s => s.1 == 0
  utility := fun s p => (nim_utility s p).getD 0
  to_move := fun s => s.2

/-- A degenerate game whose only state is non-terminal with an empty legal
action set. -/
def stuckGame : Game ℕ ℕ Player where
  actions := fun _ => []
  result := fun s _ => s
  is_terminal := fun _ => false
  utility := fun _ _ => 0
  to_move := fun _ => Player.A

/-!
## Unpruned reference value

`mval` is the plain fuel-truncated minimax value of a state: the same
recursion as the two engines with no pruning, no adversary and no failure.
It is the mathematical reference both engines are compared against: the
alpha-beta engine is proved to compute exactly this value at the root, and
the adversary-parameterized engine with no adversary is proved to return
exactly this value whenever it does not run out of fuel.  Fuel exhaustion
is a `⊥`-valued leaf, matching `abVal`'s exhaustion sentinel.
-/

/-- The maximum `max v (tval a)` folded over a list, starting from `⊥`. -/
def supVals (tval : α → EV) (l : List α) : EV :=
  l.foldl (fun v a => max v (tval a)) ⊥

/-- The minimum `min v (tval a)` folded over a list, starting from `⊤`. -/
def infVals (tval : α → EV) (l : List α) : EV :=
  l.foldl (fun v a => min v (tval a)) ⊤

/-- The fuel-truncated unpruned minimax value (`isMax` selects the
maximizing or minimizing evaluation). -/
def mval (g : Game σ α π) (player : π) : ℕ → Bool → σ → EV
  | 0, _, _ => ⊥
  | fuel + 1, isMax, s =>
    if g.is_terminal s then evOf (g.utility s player)
    else if isMax then
      supVals (fun a => mval g player fuel false (g.result s a)) (g.actions s)
    else
      infVals (fun a => mval g player fuel true (g.result s a)) (g.actions s)

/-- The pure image of the root loops of both engines: fold the incumbent
`(value, action)` pair over the actions, replacing it on a strict
improvement of the child value. -/
def refRootLoop (tval : α → EV) : List α → EV → Option α → EV × Option α
  | [], v, best => (v, best)
  | a :: rest, v, best =>
    if tval a > v then refRootLoop tval rest (tval a) (some a)
    else refRootLoop tval rest v best

theorem foldl_max_eq (tval : α → EV) :
    ∀ (l : List α) (v : EV),
      l.foldl (fun w a => max w (tval a)) v = max v (supVals tval l)
  | [], v => by simp [supVals, max_eq_left bot_le]
  | a :: l, v => by
    have h1 := foldl_max_eq tval l (max v (tval a))
    have h2 := foldl_max_eq tval l (max ⊥ (tval a))
    simp only [List.foldl_cons] at h1 h2 ⊢
    rw [h1]
    show max (max v (tval a)) (supVals tval l) = max v (supVals tval (a :: l))
    have : supVals tval (a :: l) = max (tval a) (supVals tval l) := by
      show List.foldl (fun w a => max w (tval a)) (max ⊥ (tval a)) l = _
      rw [h2, max_eq_right bot_le]
    rw [this, max_assoc]

theorem supVals_cons (tval : α → EV) (a : α) (l : List α) :
    supVals tval (a :: l) = max (tval a) (supVals tval l) := by
  show List.foldl (fun w a => max w (tval a)) (max ⊥ (tval a)) l = _
  rw [foldl_max_eq tval l, max_eq_right bot_le]

theorem foldl_min_eq (tval : α → EV) :
    ∀ (l : List α) (v : EV),
      l.foldl (fun w a => min w (tval a)) v = min v (infVals tval l)
  | [], v => by simp [infVals, min_eq_left le_top]
  | a :: l, v => by
    have h1 := foldl_min_eq tval l (min v (tval a))
    have h2 := foldl_min_eq tval l (min ⊤ (tval a))
    simp only [List.foldl_cons] at h1 h2 ⊢
    rw [h1]
    show min (min v (tval a)) (infVals tval l) = min v (infVals tval (a :: l))
    have : infVals tval (a :: l) = min (tval a) (infVals tval l) := by
      show List.foldl (fun w a => min w (tval a)) (min ⊤ (tval a)) l = _
      rw [h2, min_eq_right le_top]
    rw [this, min_assoc]

theorem infVals_cons (tval : α → EV) (a : α) (l : List α) :
    infVals tval (a :: l) = min (tval a) (infVals tval l) := by
  show List.foldl (fun w a => min w (tval a)) (min ⊤ (tval a)) l = _
  rw [foldl_min_eq tval l, min_eq_right le_top]

/-!
## Fail-soft bounds for the pruning loops

`maxLoopSpec` is the inductive heart of the pruning-equivalence proof: if
every child evaluation is fail-soft correct with respect to its true value
`tval` (exact inside the window, an upper bound of the true value when it
fails low, a lower bound when it fails high), then the loop's result `r` is
fail-soft correct with respect to `max v (supVals tval acts)`, the true
value of the node given the incumbent `v`.
-/

theorem maxLoopSpec (child : EV → α → EV) (tval : α → EV) (beta : EV)
    (hchild : ∀ al a, al < beta →
      (child al a ≤ al → tval a ≤ child al a) ∧
      (beta ≤ child al a → child al a ≤ tval a) ∧
      (al < child al a → child al a < beta → child al a = tval a)) :
    ∀ (acts : List α) (alpha v : EV) (best : Option α), v ≤ alpha → alpha < beta →
      v ≤ (maxLoop child beta acts alpha v best).1 ∧
      ((maxLoop child beta acts alpha v best).1 ≤ alpha →
        max v (supVals tval acts) ≤ (maxLoop child beta acts alpha v best).1) ∧
      (beta ≤ (maxLoop child beta acts alpha v best).1 →
        (maxLoop child beta acts alpha v best).1 ≤ max v (supVals tval acts)) ∧
      (alpha < (maxLoop child beta acts alpha v best).1 →
        (maxLoop child beta acts alpha v best).1 < beta →
        (maxLoop child beta acts alpha v best).1 = max v (supVals tval acts)) := by
  intro acts
  induction acts with
  | nil =>
    intro alpha v best hv hab
    simp only [maxLoop, supVals, List.foldl_nil]
    rw [max_eq_left bot_le]
    exact ⟨le_refl v, fun _ => le_refl v,
      fun h => absurd (le_trans h hv) (not_le.mpr hab),
      fun h1 _ => absurd (lt_of_lt_of_le h1 hv) (lt_irrefl alpha)⟩
  | cons a rest ih =>
    intro alpha v best hv hab
    obtain ⟨hc1, hc2, hc3⟩ := hchild alpha a hab
    rw [supVals_cons]
    simp only [maxLoop]
    by_cases hup : child alpha a > v
    · simp only [if_pos hup]
      by_cases hcut : beta ≤ child alpha a
      · rw [if_pos hcut]
        refine ⟨le_of_lt hup, fun h => absurd (hcut.trans h) (not_le.mpr hab),
          fun _ => le_trans (hc2 hcut) (le_trans (le_max_left _ _) (le_max_right _ _)),
          fun _ h2 => absurd hcut (not_le.mpr h2)⟩
      · rw [if_neg hcut]
        have hnc : child alpha a < beta := not_le.mp hcut
        obtain ⟨iha, ihb, ihc, ihd⟩ :=
          ih (max alpha (child alpha a)) (child alpha a) (some a)
            (le_max_right _ _) (max_lt hab hnc)
        by_cases hca : child alpha a ≤ alpha
        · -- the child failed low: its report bounds the true value from above
          have hta : tval a ≤ child alpha a := hc1 hca
          rw [max_eq_left hca] at iha ihb ihc ihd ⊢
          set r := (maxLoop child beta rest alpha (child alpha a) (some a)).1 with hr
          have hvr : v ≤ r := le_of_lt (lt_of_lt_of_le hup iha)
          refine ⟨hvr, ?_, ?_, ?_⟩
          · intro h
            have h' := ihb h
            exact max_le hvr (max_le
              (le_trans hta (le_trans (le_max_left _ _) h'))
              (le_trans (le_max_right _ _) h'))
          · intro h
            have h' := ihc h
            have hnrc : ¬ r ≤ child alpha a :=
              not_le.mpr (lt_of_le_of_lt hca (lt_of_lt_of_le hab h))
            rcases le_max_iff.mp h' with h'' | h''
            · exact absurd h'' hnrc
            · exact le_trans h'' (le_trans (le_max_right _ _) (le_max_right _ _))
          · intro h1 h2
            have h' := ihd h1 h2
            have hcr : child alpha a < r := lt_of_le_of_lt hca h1
            have hrS : r = supVals tval rest := by
              rcases max_cases (child alpha a) (supVals tval rest) with ⟨he, _⟩ | ⟨he, _⟩
              · rw [he] at h'; exact absurd h' (ne_of_gt hcr)
              · rw [he] at h'; exact h'
            rw [hrS] at hcr hvr ⊢
            rw [max_eq_right (le_of_lt (lt_of_le_of_lt hta hcr)),
              max_eq_right hvr]
        · -- the child value lies inside the window: it is exact
          have hac : alpha < child alpha a := not_le.mp hca
          have hex : child alpha a = tval a := hc3 hac hnc
          rw [max_eq_right (le_of_lt hac)] at iha ihb ihc ihd ⊢
          set r := (maxLoop child beta rest (child alpha a) (child alpha a) (some a)).1 with hr
          have hvr : v ≤ r := le_of_lt (lt_of_lt_of_le hup iha)
          have hT : max v (max (tval a) (supVals tval rest)) =
              max (child alpha a) (supVals tval rest) := by
            rw [← hex]
            exact max_eq_right
              (le_of_lt (lt_of_lt_of_le hup (le_max_left _ _)))
          rw [hT]
          refine ⟨hvr, ?_, ?_, ?_⟩
          · intro h
            exact absurd (lt_of_lt_of_le hac (le_trans iha h)) (lt_irrefl alpha)
          · exact ihc
          · intro h1 h2
            rcases eq_or_lt_of_le iha with heq | hlt
            · exact le_antisymm (heq ▸ le_max_left _ _) (heq ▸ ihb (le_of_eq heq.symm))
            · exact ihd hlt h2
    · simp only [if_neg hup]
      have hcv : child alpha a ≤ v := not_lt.mp hup
      have hnb : ¬ beta ≤ v := not_le.mpr (lt_of_le_of_lt hv hab)
      rw [if_neg hnb, max_eq_left hv]
      obtain ⟨iha, ihb, ihc, ihd⟩ := ih alpha v best hv hab
      have hta : tval a ≤ v := le_trans (hc1 (le_trans hcv hv)) hcv
      have hT : max v (max (tval a) (supVals tval rest)) =
          max v (supVals tval rest) := by
        rw [← max_assoc, max_eq_left hta]
      rw [hT]
      exact ⟨iha, ihb, ihc, ihd⟩

theorem minLoopSpec (child : EV → α → EV) (tval : α → EV) (alpha : EV)
    (hchild : ∀ bt a, alpha < bt →
      (child bt a ≤ alpha → tval a ≤ child bt a) ∧
      (bt ≤ child bt a → child bt a ≤ tval a) ∧
      (alpha < child bt a → child bt a < bt → child bt a = tval a)) :
    ∀ (acts : List α) (beta v : EV) (best : Option α), beta ≤ v → alpha < beta →
      (minLoop child alpha acts beta v best).1 ≤ v ∧
      ((minLoop child alpha acts beta v best).1 ≤ alpha →
        min v (infVals tval acts) ≤ (minLoop child alpha acts beta v best).1) ∧
      (beta ≤ (minLoop child alpha acts beta v best).1 →
        (minLoop child alpha acts beta v best).1 ≤ min v (infVals tval acts)) ∧
      (alpha < (minLoop child alpha acts beta v best).1 →
        (minLoop child alpha acts beta v best).1 < beta →
        (minLoop child alpha acts beta v best).1 = min v (infVals tval acts)) := by
  intro acts
  induction acts with
  | nil =>
    intro beta v best hv hab
    simp only [minLoop, infVals, List.foldl_nil]
    rw [min_eq_left le_top]
    exact ⟨le_refl v, fun h => absurd (le_trans hv h) (not_le.mpr hab),
      fun _ => le_refl v,
      fun _ h2 => absurd (lt_of_le_of_lt hv h2) (lt_irrefl beta)⟩
  | cons a rest ih =>
    intro beta v best hv hab
    obtain ⟨hc1, hc2, hc3⟩ := hchild beta a hab
    rw [infVals_cons]
    simp only [minLoop]
    by_cases hup : child beta a < v
    · simp only [if_pos hup]
      by_cases hcut : child beta a ≤ alpha
      · rw [if_pos hcut]
        refine ⟨le_of_lt hup,
          fun _ => le_trans (le_trans (min_le_right _ _) (min_le_left _ _)) (hc1 hcut),
          fun h => absurd (le_trans h hcut) (not_le.mpr hab),
          fun h1 _ => absurd (lt_of_lt_of_le h1 hcut) (lt_irrefl alpha)⟩
      · rw [if_neg hcut]
        have hnc : alpha < child beta a := not_le.mp hcut
        obtain ⟨iha, ihb, ihc, ihd⟩ :=
          ih (min beta (child beta a)) (child beta a) (some a)
            (min_le_right _ _) (lt_min hab hnc)
        by_cases hca : beta ≤ child beta a
        · -- the child failed high: its report bounds the true value from below
          have hta : child beta a ≤ tval a := hc2 hca
          rw [min_eq_left hca] at iha ihb ihc ihd ⊢
          set r := (minLoop child alpha rest beta (child beta a) (some a)).1 with hr
          have hvr : r ≤ v := le_trans iha (le_of_lt hup)
          refine ⟨hvr, ?_, ?_, ?_⟩
          · intro h
            have h' := ihb h
            have hnrc : ¬ child beta a ≤ r :=
              not_le.mpr (lt_of_le_of_lt h (lt_of_lt_of_le hab hca))
            rcases min_le_iff.mp h' with h'' | h''
            · exact absurd h'' hnrc
            · exact le_trans (le_trans (min_le_right _ _) (min_le_right _ _)) h''
          · intro h
            have h' := ihc h
            exact le_min hvr (le_min
              (le_trans (le_trans h' (min_le_left _ _)) hta)
              (le_trans h' (min_le_right _ _)))
          · intro h1 h2
            have h' := ihd h1 h2
            have hcr : r < child beta a := lt_of_lt_of_le h2 hca
            have hrS : r = infVals tval rest := by
              rcases min_cases (child beta a) (infVals tval rest) with ⟨he, _⟩ | ⟨he, _⟩
              · rw [he] at h'; exact absurd h' (ne_of_lt hcr)
              · rw [he] at h'; exact h'
            rw [hrS] at hcr hvr ⊢
            rw [min_eq_right (le_of_lt (lt_of_lt_of_le hcr hta)),
              min_eq_right hvr]
        · -- the child value lies inside the window: it is exact
          have hcb : child beta a < beta := not_le.mp hca
          have hex : child beta a = tval a := hc3 hnc hcb
          rw [min_eq_right (le_of_lt hcb)] at iha ihb ihc ihd ⊢
          set r := (minLoop child alpha rest (child beta a) (child beta a) (some a)).1 with hr
          have hvr : r ≤ v := le_trans iha (le_of_lt hup)
          have hT : min v (min (tval a) (infVals tval rest)) =
              min (child beta a) (infVals tval rest) := by
            rw [← hex]
            exact min_eq_right
              (le_of_lt (lt_of_le_of_lt (min_le_left _ _) hup))
          rw [hT]
          refine ⟨hvr, ?_, ?_, ?_⟩
          · exact ihb
          · intro h
            exact absurd (lt_of_le_of_lt (le_trans h iha) hcb) (lt_irrefl beta)
          · intro h1 h2
            rcases eq_or_lt_of_le iha with heq | hlt
            · exact le_antisymm (ihc (le_of_eq heq.symm)) (heq ▸ min_le_left _ _)
            · exact ihd h1 hlt
    · simp only [if_neg hup]
      have hcv : v ≤ child beta a := not_lt.mp hup
      have hna : ¬ v ≤ alpha := not_le.mpr (lt_of_lt_of_le hab hv)
      rw [if_neg hna, min_eq_left hv]
      obtain ⟨iha, ihb, ihc, ihd⟩ := ih beta v best hv hab
      have hta : v ≤ tval a := le_trans hcv (hc2 (le_trans hv hcv))
      have hT : min v (min (tval a) (infVals tval rest)) =
          min v (infVals tval rest) := by
        rw [← min_assoc, min_eq_left hta]
      rw [hT]
      exact ⟨iha, ihb, ihc, ihd⟩

/-! Unfolding equations for the fuel-indexed evaluators. -/

theorem abVal_term (g : Game σ α π) (player : π) (fuel : ℕ) (isMax : Bool)
    (s : σ) (alpha beta : EV) (h : g.is_terminal s = true) :
    abVal g player (fuel + 1) isMax s alpha beta = (evOf (g.utility s player), none) := by
  simp [abVal, h]

theorem abVal_max_step (g : Game σ α π) (player : π) (fuel : ℕ) (s : σ)
    (alpha beta : EV) (h : ¬ g.is_terminal s = true) :
    abVal g player (fuel + 1) true s alpha beta =
      maxLoop (fun al a => (abVal g player fuel false (g.result s a) al beta).1)
        beta (g.actions s) alpha ⊥ none := by
  simp [abVal, h]

theorem abVal_min_step (g : Game σ α π) (player : π) (fuel : ℕ) (s : σ)
    (alpha beta : EV) (h : ¬ g.is_terminal s = true) :
    abVal g player (fuel + 1) false s alpha beta =
      minLoop (fun bt a => (abVal g player fuel true (g.result s a) alpha bt).1)
        alpha (g.actions s) beta ⊤ none := by
  simp [abVal, h]

theorem mval_term (g : Game σ α π) (player : π) (fuel : ℕ) (isMax : Bool)
    (s : σ) (h : g.is_terminal s = true) :
    mval g player (fuel + 1) isMax s = evOf (g.utility s player) := by
  simp [mval, h]

theorem mval_max_step (g : Game σ α π) (player : π) (fuel : ℕ) (s : σ)
    (h : ¬ g.is_terminal s = true) :
    mval g player (fuel + 1) true s =
      supVals (fun a => mval g player fuel false (g.result s a)) (g.actions s) := by
  simp [mval, h]

theorem mval_min_step (g : Game σ α π) (player : π) (fuel : ℕ) (s : σ)
    (h : ¬ g.is_terminal s = true) :
    mval g player (fuel + 1) false s =
      infVals (fun a => mval g player fuel true (g.result s a)) (g.actions s) := by
  simp [mval, h]

/-- Fail-soft correctness of the alpha-beta evaluators against the unpruned
reference: inside the window the returned value is exactly the unpruned
value, a fail-low result bounds it from above, a fail-high result bounds it
from below. -/
theorem abVal_bounds (g : Game σ α π) (player : π) :
    ∀ (fuel : ℕ) (isMax : Bool) (s : σ) (alpha beta : EV), alpha < beta →
      ((abVal g player fuel isMax s alpha beta).1 ≤ alpha →
        mval g player fuel isMax s ≤ (abVal g player fuel isMax s alpha beta).1) ∧
      (beta ≤ (abVal g player fuel isMax s alpha beta).1 →
        (abVal g player fuel isMax s alpha beta).1 ≤ mval g player fuel isMax s) ∧
      (alpha < (abVal g player fuel isMax s alpha beta).1 →
        (abVal g player fuel isMax s alpha beta).1 < beta →
        (abVal g player fuel isMax s alpha beta).1 = mval g player fuel isMax s) := by
  intro fuel
  induction fuel with
  | zero =>
    intro isMax s alpha beta _
    refine ⟨fun _ => ?_, fun _ => ?_, fun _ _ => ?_⟩ <;> simp [abVal, mval]
  | succ fuel ih =>
    intro isMax s alpha beta hab
    by_cases hterm : g.is_terminal s = true
    · rw [abVal_term g player fuel isMax s alpha beta hterm,
        mval_term g player fuel isMax s hterm]
      exact ⟨fun _ => le_refl _, fun _ => le_refl _, fun _ _ => rfl⟩
    · cases isMax with
      | true =>
        rw [abVal_max_step g player fuel s alpha beta hterm,
          mval_max_step g player fuel s hterm]
        obtain ⟨_, l2, l3, l4⟩ :=
          maxLoopSpec
            (fun al a => (abVal g player fuel false (g.result s a) al beta).1)
            (fun a => mval g player fuel false (g.result s a)) beta
            (fun al a h => ih false (g.result s a) al beta h)
            (g.actions s) alpha ⊥ none bot_le hab
        rw [max_eq_right bot_le] at l2 l3 l4
        exact ⟨l2, l3, l4⟩
      | false =>
        rw [abVal_min_step g player fuel s alpha beta hterm,
          mval_min_step g player fuel s hterm]
        obtain ⟨_, l2, l3, l4⟩ :=
          minLoopSpec
            (fun bt a => (abVal g player fuel true (g.result s a) alpha bt).1)
            (fun a => mval g player fuel true (g.result s a)) alpha
            (fun bt a h => ih true (g.result s a) alpha bt h)
            (g.actions s) beta ⊤ none le_top hab
        rw [min_eq_right le_top] at l2 l3 l4
        exact ⟨l2, l3, l4⟩

/-!
## The root of the pruning search

At the root the window is `(-inf, +inf)` and `alpha` always equals the
incumbent value, so the pruning loop behaves exactly like the plain
strict-improvement loop `refRootLoop` over the true child values.
-/

theorem refRootLoop_top (tval : α → EV) :
    ∀ (acts : List α) (best : Option α), refRootLoop tval acts ⊤ best = (⊤, best) := by
  intro acts
  induction acts with
  | nil => intro best; rfl
  | cons a rest ih =>
    intro best
    simp only [refRootLoop]
    rw [if_neg (not_top_lt : ¬ tval a > ⊤)]
    exact ih best

theorem maxLoop_top_eq_ref (child : EV → α → EV) (tval : α → EV)
    (hchild : ∀ al a, al < ⊤ →
      (child al a ≤ al → tval a ≤ child al a) ∧
      (⊤ ≤ child al a → child al a ≤ tval a) ∧
      (al < child al a → child al a < ⊤ → child al a = tval a)) :
    ∀ (acts : List α) (v : EV) (best : Option α),
      maxLoop child ⊤ acts v v best = refRootLoop tval acts v best := by
  intro acts
  induction acts with
  | nil => intro v best; rfl
  | cons a rest ih =>
    intro v best
    rcases eq_or_lt_of_le (le_top : v ≤ ⊤) with htop | hvt
    · subst htop
      rw [refRootLoop_top]
      simp only [maxLoop]
      rw [if_neg (not_top_lt : ¬ child ⊤ a > ⊤)]
      rw [if_neg (not_top_lt : ¬ child ⊤ a > ⊤)]
      rw [if_pos (le_refl (⊤ : EV))]
    · simp only [maxLoop, refRootLoop]
      obtain ⟨h1, h2, h3⟩ := hchild v a hvt
      by_cases hup : child v a > v
      · simp only [if_pos hup]
        by_cases hct : (⊤ : EV) ≤ child v a
        · have hcv : child v a = ⊤ := top_le_iff.mp hct
          have hta : tval a = ⊤ :=
            top_le_iff.mp (le_trans hct (h2 hct))
          rw [if_pos hct, if_pos (hta ▸ hvt : tval a > v), hta, refRootLoop_top, hcv]
        · have hclt : child v a < ⊤ := not_le.mp hct
          have hex : child v a = tval a := h3 hup hclt
          rw [if_neg hct, if_pos (hex ▸ hup : tval a > v),
            max_eq_right (le_of_lt hup), ih, hex]
      · simp only [if_neg hup]
        have hta : tval a ≤ v := le_trans (h1 (not_lt.mp hup)) (not_lt.mp hup)
        rw [if_neg (not_le.mpr hvt), if_neg (not_lt.mpr hta : ¬ tval a > v),
          max_self, ih]

/-- At the root window the alpha-beta maximizing evaluation computes
exactly the plain strict-improvement sweep over the unpruned child
values. -/
theorem abVal_root_pair (g : Game σ α π) (player : π) (fuel : ℕ) (s : σ)
    (hterm : ¬ g.is_terminal s = true) :
    abVal g player (fuel + 1) true s ⊥ ⊤ =
      refRootLoop (fun a => mval g player fuel false (g.result s a))
        (g.actions s) ⊥ none := by
  rw [abVal_max_step g player fuel s ⊥ ⊤ hterm]
  exact maxLoop_top_eq_ref _ _
    (fun al a h => abVal_bounds g player fuel false (g.result s a) al ⊤ h)
    (g.actions s) ⊥ none

/-!
## The adversary-free engine succeeds only with the unpruned value
-/

theorem mmVal_zero (g : Game σ α π) (adv : Option (Adversary σ α π))
    (player : π) (isMax : Bool) (s : σ) :
    mmVal g adv player 0 isMax s = none := rfl

theorem mmVal_term (g : Game σ α π) (adv : Option (Adversary σ α π))
    (player : π) (fuel : ℕ) (isMax : Bool) (s : σ)
    (h : g.is_terminal s = true) :
    mmVal g adv player (fuel + 1) isMax s = some (evOf (g.utility s player)) := by
  simp [mmVal, Game.terminal_test, h]

theorem mmVal_max_step (g : Game σ α π) (adv : Option (Adversary σ α π))
    (player : π) (fuel : ℕ) (s : σ) (h : ¬ g.is_terminal s = true) :
    mmVal g adv player (fuel + 1) true s =
      foldMaxM (fun a => mmVal g adv player fuel false (g.result s a))
        (g.actions s) ⊥ := by
  simp [mmVal, Game.terminal_test, h]

theorem mmVal_min_none_step (g : Game σ α π) (player : π) (fuel : ℕ) (s : σ)
    (h : ¬ g.is_terminal s = true) :
    mmVal g none player (fuel + 1) false s =
      foldMinM (fun a => mmVal g none player fuel true (g.result s a))
        (g.actions s) ⊤ := by
  simp [mmVal, Game.terminal_test, h]

theorem mmVal_min_adv_step (g : Game σ α π) (adversary : Adversary σ α π)
    (player : π) (fuel : ℕ) (s : σ) (h : ¬ g.is_terminal s = true) :
    mmVal g (some adversary) player (fuel + 1) false s =
      match adversary.choose_action s (g.actions s) g
          (fun st => mmVal g (some adversary) player fuel true st) (g.to_move s) with
      | none => none
      | some none => none
      | some (some chosen) =>
        mmVal g (some adversary) player fuel true (g.result s chosen) := by
  simp [mmVal, Game.terminal_test, h]

theorem foldMaxM_some_eq (f : α → Option EV) (tval : α → EV)
    (hpt : ∀ a u, f a = some u → u = tval a) :
    ∀ (l : List α) (v w : EV), foldMaxM f l v = some w →
      w = l.foldl (fun x a => max x (tval a)) v := by
  intro l
  induction l with
  | nil =>
    intro v w h
    simp only [foldMaxM, Option.some.injEq] at h
    simp [h.symm]
  | cons a rest ih =>
    intro v w h
    simp only [foldMaxM] at h
    cases hfa : f a with
    | none => rw [hfa] at h; exact absurd h (by simp)
    | some u =>
      rw [hfa] at h
      rw [List.foldl_cons, ← hpt a u hfa]
      exact ih _ _ h

theorem foldMinM_some_eq (f : α → Option EV) (tval : α → EV)
    (hpt : ∀ a u, f a = some u → u = tval a) :
    ∀ (l : List α) (v w : EV), foldMinM f l v = some w →
      w = l.foldl (fun x a => min x (tval a)) v := by
  intro l
  induction l with
  | nil =>
    intro v w h
    simp only [foldMinM, Option.some.injEq] at h
    simp [h.symm]
  | cons a rest ih =>
    intro v w h
    simp only [foldMinM] at h
    cases hfa : f a with
    | none => rw [hfa] at h; exact absurd h (by simp)
    | some u =>
      rw [hfa] at h
      rw [List.foldl_cons, ← hpt a u hfa]
      exact ih _ _ h

/-- Whenever the adversary-free nested evaluators return normally, they
return exactly the unpruned reference value. -/
theorem mmVal_none_eq (g : Game σ α π) (player : π) :
    ∀ (fuel : ℕ) (isMax : Bool) (s : σ) (w : EV),
      mmVal g none player fuel isMax s = some w → w = mval g player fuel isMax s := by
  intro fuel
  induction fuel with
  | zero =>
    intro isMax s w h
    exact absurd h (by simp [mmVal_zero])
  | succ fuel ih =>
    intro isMax s w h
    by_cases hterm : g.is_terminal s = true
    · rw [mmVal_term g none player fuel isMax s hterm, Option.some.injEq] at h
      rw [mval_term g player fuel isMax s hterm, ← h]
    · cases isMax with
      | true =>
        rw [mmVal_max_step g none player fuel s hterm] at h
        rw [mval_max_step g player fuel s hterm]
        exact foldMaxM_some_eq _ _ (fun a u hu => ih false (g.result s a) u hu)
          (g.actions s) ⊥ w h
      | false =>
        rw [mmVal_min_none_step g player fuel s hterm] at h
        rw [mval_min_step g player fuel s hterm]
        exact foldMinM_some_eq _ _ (fun a u hu => ih true (g.result s a) u hu)
          (g.actions s) ⊤ w h

/-- Whenever the root loop of `minimax_decision` returns normally, the pair
it returns is the plain strict-improvement sweep over the values its child
evaluator would report. -/
theorem mmRootLoop_some_eq (f : α → Option EV) (tval : α → EV)
    (hpt : ∀ a u, f a = some u → u = tval a) :
    ∀ (l : List α) (bv : EV) (ba : Option α) (p : EV × Option α),
      mmRootLoop f l bv ba = some p → p = refRootLoop tval l bv ba := by
  intro l
  induction l with
  | nil =>
    intro bv ba p h
    simp only [mmRootLoop, Option.some.injEq] at h
    simp [refRootLoop, h.symm]
  | cons a rest ih =>
    intro bv ba p h
    cases hfa : f a with
    | none =>
      simp only [mmRootLoop, hfa] at h
      exact absurd h (by simp)
    | some u =>
      simp only [mmRootLoop, hfa] at h
      simp only [refRootLoop, ← hpt a u hfa]
      by_cases hgt : u > bv
      · rw [if_pos hgt] at h ⊢
        exact ih _ _ _ h
      · rw [if_neg hgt] at h ⊢
        exact ih _ _ _ h

/-!
## Claim theorems
-/

/-- Claim C1, counterexample: at the already-terminal state `(0, A)` of the
demonstration game the pruning form reports the terminal utility `-1` as
its root value, while the unpruned root sweep of `minimax_decision` (which
never checks terminality and iterates over the empty action list) reports
the sentinel `-inf`; the two root values differ, although both return no
action. -/
theorem pruning_terminal_value_counterexample :
    (max_value (NimGame 3) Player.A 1 (0, Player.A) ⊥ ⊤).1 = evOf (-1) ∧
    mmDecisionPair (NimGame 3) Player.A none 1 (0, Player.A) = some (⊥, none) ∧
    evOf (-1) ≠ (⊥ : EV) :=
  ⟨by decide, by decide, by decide⟩

/-- Claim C1 (amended): for every game model and every non-terminal state,
whenever the unpruned full minimax sweep (`minimax_decision` with no
adversary, with enough fuel to run to completion) returns a root value and
action, the pruning form computes exactly the same root value and returns
exactly the same action; at terminal states both still return no action,
but the pruning form reports the terminal utility while the unpruned sweep
reports `-inf`. -/
theorem pruning_equivalence (g : Game σ α π) (fuel : ℕ) (s : σ) (v : EV)
    (m : Option α) (hterm : g.is_terminal s = false)
    (hmm : mmDecisionPair g (g.to_move s) none fuel s = some (v, m)) :
    max_value g (g.to_move s) fuel s ⊥ ⊤ = (v, m) ∧
    alpha_beta_search g fuel s = m := by
  cases fuel with
  | zero => exact absurd hmm (by simp [mmDecisionPair])
  | succ fuel =>
    have hterm' : ¬ g.is_terminal s = true := by simp [hterm]
    have h1 : (v, m) =
        refRootLoop (fun a => mval g (g.to_move s) fuel false (g.result s a))
          (g.actions s) ⊥ none :=
      mmRootLoop_some_eq
        (fun a => mmMin g none (g.to_move s) fuel (g.result s a))
        (fun a => mval g (g.to_move s) fuel false (g.result s a))
        (fun a u hu => mmVal_none_eq g (g.to_move s) fuel false (g.result s a) u hu)
        (g.actions s) ⊥ none (v, m) hmm
    have h2 : max_value g (g.to_move s) (fuel + 1) s ⊥ ⊤ = (v, m) := by
      show abVal g (g.to_move s) (fuel + 1) true s ⊥ ⊤ = (v, m)
      rw [abVal_root_pair g (g.to_move s) fuel s hterm']
      exact h1.symm
    refine ⟨h2, ?_⟩
    show (max_value g (g.to_move s) (fuel + 1) s ⊥ ⊤).2 = m
    rw [h2]

/-- Witness for the amended claim C1, at the demonstration game's initial
state with 7 tokens. -/
theorem pruning_equivalence_witness :
    max_value (NimGame 3) Player.A 8 (7, Player.A) ⊥ ⊤ = (evOf 1, some 3) ∧
    alpha_beta_search (NimGame 3) 8 (7, Player.A) = some 3 :=
  pruning_equivalence (NimGame 3) 8 (7, Player.A) (evOf 1) (some 3)
    (by decide) (by decide)

/-- Claim C3: on the demonstration single-pile subtraction game with
`max_take = 3` and state `(7 tokens, player A to move)`, the pruning
search returns the action 3, and `minimax_decision` for player A returns
the action 3 both with no adversary and with an `OptimalAdversary`. -/
theorem nim_seven_best_action :
    alpha_beta_search (NimGame 3) 8 (7, Player.A) = some 3 ∧
    minimax_decision (NimGame 3) Player.A none 8 (7, Player.A) = some (some 3) ∧
    minimax_decision (NimGame 3) Player.A (some OptimalAdversary) 8 (7, Player.A) =
      some (some 3) :=
  ⟨by decide, by decide, by decide⟩

/-- Claim C4: the demonstration game's `utility` fails with an
invalid-state error (modelled as `none`) on every non-terminal state
(nonzero token count), for every player, and returns a value on every
terminal state. -/
theorem nim_utility_terminal_only (t : ℤ) (pl p : Player) :
    ((NimGame 3).is_terminal (t, pl) = false → nim_utility (t, pl) p = none) ∧
    ((NimGame 3).is_terminal (t, pl) = true →
      (nim_utility (t, pl) p).isSome = true) := by
  constructor
  · intro h
    have ht : t ≠ 0 := by simpa [NimGame] using h
    simp [nim_utility, ht]
  · intro h
    have ht : t = 0 := by simpa [NimGame] using h
    subst ht
    simp [nim_utility]

/-- Witness for claim C4. -/
theorem nim_utility_terminal_only_witness :
    nim_utility (5, Player.A) Player.A = none ∧
    (nim_utility (0, Player.B) Player.A).isSome = true :=
  ⟨(nim_utility_terminal_only 5 Player.A Player.A).1 (by decide),
   (nim_utility_terminal_only 0 Player.B Player.A).2 (by decide)⟩

/-- Claim C6, counterexample: at the stuck game's non-terminal,
action-less state the adversary-parameterized minimizing evaluation with a
supplied (optimal) adversary does not return the `+inf` sentinel: the
adversary returns Python `None`, the engine passes it to `result`, and the
call raises (modelled as `none`). -/
theorem empty_actions_adversary_counterexample :
    mmMin stuckGame (some OptimalAdversary) Player.A 1 0 = none ∧
    (none : Option EV) ≠ some ⊤ :=
  ⟨by decide, by decide⟩

/-- Claim C6 (amended): at a non-terminal state with an empty legal-action
set, the loop-based evaluations of both search forms perform zero
iterations and return the initialized sentinel with no chosen action
(`-inf` at a maximizing node, `+inf` at a minimizing node) without
raising; the adversary-parameterized minimizing evaluation with a supplied
adversary instead delegates to the adversary, and with the built-in
optimal adversary the empty list makes it return `None`, which the engine
then feeds into `result`, raising rather than returning the sentinel. -/
theorem empty_actions_sentinel (g : Game σ α π) (player : π) (fuel : ℕ)
    (s : σ) (alpha beta : EV) (hterm : g.is_terminal s = false)
    (hacts : g.actions s = []) :
    max_value g player (fuel + 1) s alpha beta = (⊥, none) ∧
    min_value g player (fuel + 1) s alpha beta = (⊤, none) ∧
    mmMax g none player (fuel + 1) s = some ⊥ ∧
    mmMin g none player (fuel + 1) s = some ⊤ ∧
    mmMin g (some OptimalAdversary) player (fuel + 1) s = none := by
  have hterm' : ¬ g.is_terminal s = true := by simp [hterm]
  refine ⟨?_, ?_, ?_, ?_, ?_⟩
  · show abVal g player (fuel + 1) true s alpha beta = (⊥, none)
    rw [abVal_max_step g player fuel s alpha beta hterm', hacts]
    rfl
  · show abVal g player (fuel + 1) false s alpha beta = (⊤, none)
    rw [abVal_min_step g player fuel s alpha beta hterm', hacts]
    rfl
  · show mmVal g none player (fuel + 1) true s = some ⊥
    rw [mmVal_max_step g none player fuel s hterm', hacts]
    rfl
  · show mmVal g none player (fuel + 1) false s = some ⊤
    rw [mmVal_min_none_step g player fuel s hterm', hacts]
    rfl
  · show mmVal g (some OptimalAdversary) player (fuel + 1) false s = none
    rw [mmVal_min_adv_step g OptimalAdversary player fuel s hterm', hacts]
    rfl

/-- Witness for the amended claim C6, at the stuck game's state. -/
theorem empty_actions_sentinel_witness :
    max_value stuckGame Player.A 1 0 ⊥ ⊤ = (⊥, none) ∧
    min_value stuckGame Player.A 1 0 ⊥ ⊤ = (⊤, none) ∧
    mmMax stuckGame none Player.A 1 0 = some ⊥ ∧
    mmMin stuckGame none Player.A 1 0 = some ⊤ ∧
    mmMin stuckGame (some OptimalAdversary) Player.A 1 0 = none :=
  empty_actions_sentinel stuckGame Player.A 0 0 ⊥ ⊤ (by decide) (by decide)

/-- Claim C9: zero-sum symmetry of the demonstration game's utility: on
every terminal state the two players' utilities are exact negations of
each other, taking values only in `{+1, -1}`. -/
theorem nim_utility_zero_sum (t : ℤ) (pl : Player)
    (hterm : (NimGame 3).is_terminal (t, pl) = true) :
    ∃ q : ℚ, nim_utility (t, pl) Player.A = some q ∧
      nim_utility (t, pl) Player.B = some (-q) ∧ (q = 1 ∨ q = -1) := by
  have ht : t = 0 := by simpa [NimGame] using hterm
  subst ht
  cases pl with
  | A => exact ⟨-1, by decide, by decide, Or.inr rfl⟩
  | B => exact ⟨1, by decide, by decide, Or.inl rfl⟩

/-- Witness for claim C9. -/
theorem nim_utility_zero_sum_witness :
    ∃ q : ℚ, nim_utility (0, Player.A) Player.A = some q ∧
      nim_utility (0, Player.A) Player.B = some (-q) ∧ (q = 1 ∨ q = -1) :=
  nim_utility_zero_sum 0 Player.A (by decide)

/-- Claim C10: invoked on an already-terminal state of a game whose action
enumeration there is empty (as in the demonstration game), both top-level
operations return no action rather than raising: the pruning search
evaluates the terminal utility and returns the `None` move, and
`minimax_decision` — whose root loop never checks terminality — iterates
over the empty action list and returns its initial `None`. -/
theorem terminal_root_returns_no_action (g : Game σ α π) (player : π)
    (adv : Option (Adversary σ α π)) (fuel : ℕ) (s : σ)
    (hterm : g.is_terminal s = true) (hacts : g.actions s = []) :
    alpha_beta_search g (fuel + 1) s = none ∧
    minimax_decision g player adv (fuel + 1) s = some none := by
  constructor
  · show (abVal g (g.to_move s) (fuel + 1) true s ⊥ ⊤).2 = none
    rw [abVal_term g (g.to_move s) fuel true s ⊥ ⊤ hterm]
  · show (mmRootLoop (fun a => mmMin g adv player fuel (g.result s a))
      (g.actions s) ⊥ none).map (fun p => p.2) = some none
    rw [hacts]
    rfl

/-- Witness for claim C10, at the demonstration game's terminal state. -/
theorem terminal_root_witness :
    alpha_beta_search (NimGame 3) 1 (0, Player.A) = none ∧
    minimax_decision (NimGame 3) Player.A none 1 (0, Player.A) = some none :=
  terminal_root_returns_no_action (NimGame 3) Player.A none 0 (0, Player.A)
    (by decide) (by decide)

/-!
## Adversary choice membership
-/

theorem evOf_lt_top (q : ℚ) : evOf q < ⊤ := by
  show ((q : WithTop ℚ) : EV) < ((⊤ : WithTop ℚ) : EV)
  exact WithBot.coe_lt_coe.mpr (WithTop.coe_lt_top q)

theorem argminH_some_mem (f : α → EV) :
    ∀ (l : List α) (best : Option α) (bv : EV) (c : α),
      argminH f l best bv = some c → best = some c ∨ c ∈ l := by
  intro l
  induction l with
  | nil => intro best bv c h; exact Or.inl h
  | cons a rest ih =>
    intro best bv c h
    simp only [argminH] at h
    by_cases hlt : f a < bv
    · rw [if_pos hlt] at h
      rcases ih (some a) (f a) c h with h' | h'
      · exact Or.inr (List.mem_cons.mpr (Or.inl (Option.some.inj h').symm))
      · exact Or.inr (List.mem_cons_of_mem a h')
    · rw [if_neg hlt] at h
      rcases ih best bv c h with h' | h'
      · exact Or.inl h'
      · exact Or.inr (List.mem_cons_of_mem a h')

theorem argminH_some_isSome (f : α → EV) :
    ∀ (l : List α) (b : α) (bv : EV), ∃ c, argminH f l (some b) bv = some c := by
  intro l
  induction l with
  | nil => intro b bv; exact ⟨b, rfl⟩
  | cons a rest ih =>
    intro b bv
    simp only [argminH]
    by_cases hlt : f a < bv
    · rw [if_pos hlt]; exact ih a (f a)
    · rw [if_neg hlt]; exact ih b bv

theorem argminE_some_mem (f : α → Option EV) :
    ∀ (l : List α) (best : Option α) (bv : EV) (c : α),
      argminE f l best bv = some (some c) → best = some c ∨ c ∈ l := by
  intro l
  induction l with
  | nil =>
    intro best bv c h
    simp only [argminE, Option.some.injEq] at h
    exact Or.inl h
  | cons a rest ih =>
    intro best bv c h
    cases hfa : f a with
    | none =>
      simp only [argminE, hfa] at h
      exact absurd h (by simp)
    | some u =>
      simp only [argminE, hfa] at h
      by_cases hlt : u < bv
      · rw [if_pos hlt] at h
        rcases ih (some a) u c h with h' | h'
        · exact Or.inr (List.mem_cons.mpr (Or.inl (Option.some.inj h').symm))
        · exact Or.inr (List.mem_cons_of_mem a h')
      · rw [if_neg hlt] at h
        rcases ih best bv c h with h' | h'
        · exact Or.inl h'
        · exact Or.inr (List.mem_cons_of_mem a h')

theorem argminE_some_isSome (f : α → Option EV) :
    ∀ (l : List α) (b : α) (bv : EV), (∀ a ∈ l, ∃ u, f a = some u) →
      ∃ c, argminE f l (some b) bv = some (some c) := by
  intro l
  induction l with
  | nil => intro b bv _; exact ⟨b, rfl⟩
  | cons a rest ih =>
    intro b bv hl
    obtain ⟨u, hu⟩ := hl a (List.mem_cons_self a rest)
    simp only [argminE, hu]
    by_cases hlt : u < bv
    · rw [if_pos hlt]
      exact ih a u (fun x hx => hl x (List.mem_cons_of_mem a hx))
    · rw [if_neg hlt]
      exact ih b bv (fun x hx => hl x (List.mem_cons_of_mem a hx))

theorem argminE_lt_top_mem (f : α → Option EV) :
    ∀ (l : List α), (∀ a ∈ l, ∃ u, f a = some u) →
      (∃ a ∈ l, ∃ u, f a = some u ∧ u < ⊤) →
      ∃ c, argminE f l none ⊤ = some (some c) ∧ c ∈ l := by
  intro l
  induction l with
  | nil => intro _ hex; exact absurd hex (by simp)
  | cons a rest ih =>
    intro hall hex
    obtain ⟨u, hu⟩ := hall a (List.mem_cons_self a rest)
    simp only [argminE, hu]
    by_cases hlt : u < ⊤
    · rw [if_pos hlt]
      obtain ⟨c, hc⟩ :=
        argminE_some_isSome f rest a u (fun x hx => hall x (List.mem_cons_of_mem a hx))
      refine ⟨c, hc, ?_⟩
      rcases argminE_some_mem f rest (some a) u c hc with h' | h'
      · exact List.mem_cons.mpr (Or.inl (Option.some.inj h').symm)
      · exact List.mem_cons_of_mem a h'
    · rw [if_neg hlt]
      obtain ⟨b, hb, w, hw, hwlt⟩ := hex
      rcases List.mem_cons.mp hb with rfl | hb'
      · rw [hu] at hw
        have huw : u = w := Option.some.inj hw
        rw [huw] at hlt
        exact absurd hwlt hlt
      · obtain ⟨c, hc, hcm⟩ :=
          ih (fun x hx => hall x (List.mem_cons_of_mem a hx)) ⟨b, hb', w, hw, hwlt⟩
        exact ⟨c, hc, List.mem_cons_of_mem a hcm⟩

theorem argminH_lt_top_mem (f : α → EV) :
    ∀ (l : List α), (∃ a ∈ l, f a < ⊤) →
      ∃ c, argminH f l none ⊤ = some c ∧ c ∈ l := by
  intro l
  induction l with
  | nil => intro hex; exact absurd hex (by simp)
  | cons a rest ih =>
    intro hex
    simp only [argminH]
    by_cases hlt : f a < ⊤
    · rw [if_pos hlt]
      obtain ⟨c, hc⟩ := argminH_some_isSome f rest a (f a)
      refine ⟨c, hc, ?_⟩
      rcases argminH_some_mem f rest (some a) (f a) c hc with h' | h'
      · exact List.mem_cons.mpr (Or.inl (Option.some.inj h').symm)
      · exact List.mem_cons_of_mem a h'
    · rw [if_neg hlt]
      obtain ⟨b, hb, hblt⟩ := hex
      rcases List.mem_cons.mp hb with rfl | hb'
      · exact absurd hblt hlt
      · obtain ⟨c, hc, hcm⟩ := ih ⟨b, hb', hblt⟩
        exact ⟨c, hc, List.mem_cons_of_mem a hcm⟩

/-- Claim C7, counterexample: the optimal and heuristic adversaries can
return Python `None` instead of an element of the (nonempty) action list
`[0]` — when every evaluator score, respectively every heuristic score
(the heuristic is an arbitrary float function, so `float('inf')` is a
legal score), is `+inf`, the strict `<` against the initial `+inf` never
replaces the initial `None` in their identical argmin loops. -/
theorem adversary_choice_counterexample :
    OptimalAdversary.choose_action 0 [0] stuckGame (fun _ => some ⊤) Player.A =
      some none ∧
    (HeuristicAdversary (fun _ => (⊤ : EV))).choose_action 0 [0] stuckGame
      (fun _ => some ⊤) Player.A = some none ∧
    some (none : Option ℕ) ≠ some (some 0) :=
  ⟨by decide, by decide, by decide⟩

/-- Claim C7 (amended): each adversary variant returns an element of the
action list whenever it returns an action at all: the random adversary for
every entropy draw on every nonempty list; the heuristic adversary
whenever at least one heuristic score is strictly below `+inf`; the
optimal adversary whenever every evaluation returns normally and at least
one scores strictly below `+inf`.  On an empty list the optimal and
heuristic variants return `None`, not an element, and the random variant
raises; with all scores `+inf` the optimal and heuristic variants return
`None` even on a nonempty list. -/
theorem adversary_choice_mem (g : Game σ α π) (s : σ) (acts : List α)
    (evaluator : σ → Option EV) (heuristic : σ → EV) (opp : π) (k : ℕ)
    (hne : acts ≠ []) :
    (∃ c, (RandomAdversary k).choose_action s acts g evaluator opp =
        some (some c) ∧ c ∈ acts) ∧
    ((∃ a ∈ acts, heuristic (g.result s a) < ⊤) →
      ∃ c, (HeuristicAdversary heuristic).choose_action s acts g evaluator opp =
        some (some c) ∧ c ∈ acts) ∧
    ((∀ a ∈ acts, ∃ u, evaluator (g.result s a) = some u) →
      (∃ a ∈ acts, ∃ u, evaluator (g.result s a) = some u ∧ u < ⊤) →
      ∃ c, OptimalAdversary.choose_action s acts g evaluator opp =
        some (some c) ∧ c ∈ acts) := by
  cases acts with
  | nil => exact absurd rfl hne
  | cons a rest =>
    refine ⟨?_, ?_, ?_⟩
    · exact ⟨(a :: rest).get ⟨k % (a :: rest).length, Nat.mod_lt _ (Nat.succ_pos _)⟩,
        rfl, List.get_mem _ _ _⟩
    · intro hex
      obtain ⟨c, hc, hcm⟩ :=
        argminH_lt_top_mem (fun x => heuristic (g.result s x)) (a :: rest) hex
      exact ⟨c, by
        show some (argminH (fun x => heuristic (g.result s x)) (a :: rest) none ⊤) =
          some (some c)
        rw [hc], hcm⟩
    · intro hall hex
      exact argminE_lt_top_mem (fun x => evaluator (g.result s x)) (a :: rest) hall hex

/-- Witness for the amended claim C7: all three adversaries return an
element of `[5, 7]` under finite scores. -/
theorem adversary_choice_mem_witness :
    (∃ c, (RandomAdversary 3).choose_action 0 [5, 7] stuckGame
        (fun _ => some (evOf 2)) Player.A = some (some c) ∧ c ∈ [5, 7]) ∧
    (∃ c, (HeuristicAdversary (fun _ => evOf 3)).choose_action 0 [5, 7] stuckGame
        (fun _ => some (evOf 2)) Player.A = some (some c) ∧ c ∈ [5, 7]) ∧
    (∃ c, OptimalAdversary.choose_action 0 [5, 7] stuckGame
        (fun _ => some (evOf 2)) Player.A = some (some c) ∧ c ∈ [5, 7]) := by
  obtain ⟨h1, h2, h3⟩ := adversary_choice_mem stuckGame 0 [5, 7]
    (fun _ => some (evOf 2)) (fun _ => evOf 3) Player.A 3 (by decide)
  exact ⟨h1, h2 ⟨5, by decide, evOf_lt_top 3⟩, h3 (fun a _ => ⟨evOf 2, rfl⟩)
    ⟨5, by decide, evOf 2, rfl, evOf_lt_top 2⟩⟩

/-!
## Optimal-adversary degeneracy

With the optimal adversary, the minimizing evaluation's explicit argmin
over evaluator scores reproduces the built-in true-minimization fold, as
long as no non-terminal state has an empty action set (in that case the
adversary path raises while the fold returns the `+inf` sentinel).  The
key auxiliary fact is that under that conformance condition the engine
only ever produces values strictly below `+inf`, so the argmin's strict
comparison against the initial `+inf` always installs the first action.
-/

theorem foldMaxM_lt_top (f : α → Option EV) :
    ∀ (l : List α) (v w : EV), v < ⊤ →
      (∀ a ∈ l, ∀ u, f a = some u → u < ⊤) →
      foldMaxM f l v = some w → w < ⊤ := by
  intro l
  induction l with
  | nil =>
    intro v w hv _ h
    simp only [foldMaxM, Option.some.injEq] at h
    exact h ▸ hv
  | cons a rest ih =>
    intro v w hv hl h
    cases hfa : f a with
    | none =>
      simp only [foldMaxM, hfa] at h
      exact absurd h (by simp)
    | some u =>
      simp only [foldMaxM, hfa] at h
      exact ih (max v u) w
        (max_lt hv (hl a (List.mem_cons_self a rest) u hfa))
        (fun x hx => hl x (List.mem_cons_of_mem a hx)) h

theorem foldMinM_le (f : α → Option EV) :
    ∀ (l : List α) (v w : EV), foldMinM f l v = some w → w ≤ v := by
  intro l
  induction l with
  | nil =>
    intro v w h
    simp only [foldMinM, Option.some.injEq] at h
    exact le_of_eq h.symm
  | cons a rest ih =>
    intro v w h
    cases hfa : f a with
    | none =>
      simp only [foldMinM, hfa] at h
      exact absurd h (by simp)
    | some u =>
      simp only [foldMinM, hfa] at h
      exact le_trans (ih (min v u) w h) (min_le_left v u)

/-- Under the no-empty-action-set conformance condition, every value the
adversary-free engine returns normally is strictly below `+inf`. -/
theorem mmVal_none_lt_top (g : Game σ α π) (player : π)
    (hne : ∀ t, g.is_terminal t = false → g.actions t ≠ []) :
    ∀ (fuel : ℕ) (isMax : Bool) (s : σ) (w : EV),
      mmVal g none player fuel isMax s = some w → w < ⊤ := by
  intro fuel
  induction fuel with
  | zero =>
    intro isMax s w h
    exact absurd h (by simp [mmVal_zero])
  | succ fuel ih =>
    intro isMax s w h
    by_cases hterm : g.is_terminal s = true
    · rw [mmVal_term g none player fuel isMax s hterm, Option.some.injEq] at h
      exact h ▸ evOf_lt_top (g.utility s player)
    · have hfalse : g.is_terminal s = false := by
        cases hb : g.is_terminal s
        · rfl
        · exact absurd hb hterm
      cases isMax with
      | true =>
        rw [mmVal_max_step g none player fuel s hterm] at h
        exact foldMaxM_lt_top _ (g.actions s) ⊥ w bot_lt_top
          (fun a _ u hu => ih false (g.result s a) u hu) h
      | false =>
        rw [mmVal_min_none_step g player fuel s hterm] at h
        cases hacts : g.actions s with
        | nil => exact absurd hacts (hne s hfalse)
        | cons a rest =>
          rw [hacts] at h
          cases hfa : mmVal g none player fuel true (g.result s a) with
          | none =>
            simp only [foldMinM, hfa] at h
            exact absurd h (by simp)
          | some u =>
            simp only [foldMinM, hfa] at h
            have hwu : w ≤ min ⊤ u := foldMinM_le _ rest (min ⊤ u) w h
            exact lt_of_le_of_lt (le_trans hwu (min_le_right ⊤ u))
              (ih true (g.result s a) u hfa)

/-- The argmin loop of the optimal adversary tracks the `min` fold of the
engine's own minimizing evaluation: both fail together, and on success the
chosen action's score is exactly the folded minimum. -/
theorem argminE_foldMinM (f : α → Option EV) :
    ∀ (l : List α) (b : α) (bv : EV), f b = some bv →
      (argminE f l (some b) bv = none ∧ foldMinM f l bv = none) ∨
      (∃ c w, argminE f l (some b) bv = some (some c) ∧
        foldMinM f l bv = some w ∧ f c = some w) := by
  intro l
  induction l with
  | nil => intro b bv hb; exact Or.inr ⟨b, bv, rfl, rfl, hb⟩
  | cons a rest ih =>
    intro b bv hb
    cases hfa : f a with
    | none =>
      left
      constructor
      · simp only [argminE, hfa]
      · simp only [foldMinM, hfa]
    | some u =>
      by_cases hu : u < bv
      · have h' := ih a u hfa
        have e1 : argminE f (a :: rest) (some b) bv = argminE f rest (some a) u := by
          simp only [argminE, hfa, if_pos hu]
        have e2 : foldMinM f (a :: rest) bv = foldMinM f rest u := by
          simp only [foldMinM, hfa, min_eq_right (le_of_lt hu)]
        rw [e1, e2]
        exact h'
      · have h' := ih b bv hb
        have e1 : argminE f (a :: rest) (some b) bv = argminE f rest (some b) bv := by
          simp only [argminE, hfa, if_neg hu]
        have e2 : foldMinM f (a :: rest) bv = foldMinM f rest bv := by
          simp only [foldMinM, hfa, min_eq_left (not_lt.mp hu)]
        rw [e1, e2]
        exact h'

/-- Pointwise equality of the engine with the optimal adversary and the
adversary-free engine, under the no-empty-action-set conformance
condition. -/
theorem mmVal_optimal_eq_none (g : Game σ α π) (player : π)
    (hne : ∀ t, g.is_terminal t = false → g.actions t ≠ []) :
    ∀ (fuel : ℕ) (isMax : Bool) (s : σ),
      mmVal g (some OptimalAdversary) player fuel isMax s =
      mmVal g none player fuel isMax s := by
  intro fuel
  induction fuel with
  | zero => intro isMax s; rfl
  | succ fuel ih =>
    intro isMax s
    by_cases hterm : g.is_terminal s = true
    · rw [mmVal_term g (some OptimalAdversary) player fuel isMax s hterm,
        mmVal_term g none player fuel isMax s hterm]
    · have hfalse : g.is_terminal s = false := by
        cases hb : g.is_terminal s
        · rfl
        · exact absurd hb hterm
      cases isMax with
      | true =>
        rw [mmVal_max_step g (some OptimalAdversary) player fuel s hterm,
          mmVal_max_step g none player fuel s hterm]
        have hfun : (fun a => mmVal g (some OptimalAdversary) player fuel false (g.result s a)) =
            (fun a => mmVal g none player fuel false (g.result s a)) :=
          funext fun a => ih false (g.result s a)
        rw [hfun]
      | false =>
        rw [mmVal_min_adv_step g OptimalAdversary player fuel s hterm,
          mmVal_min_none_step g player fuel s hterm]
        simp only [ih]
        show (match argminE (fun a => mmVal g none player fuel true (g.result s a))
            (g.actions s) none ⊤ with
          | none => none
          | some none => none
          | some (some chosen) => mmVal g none player fuel true (g.result s chosen)) =
          foldMinM (fun a => mmVal g none player fuel true (g.result s a)) (g.actions s) ⊤
        cases hacts : g.actions s with
        | nil => exact absurd hacts (hne s hfalse)
        | cons a rest =>
          cases hfa : mmVal g none player fuel true (g.result s a) with
          | none =>
            have e1 : argminE (fun a => mmVal g none player fuel true (g.result s a))
                (a :: rest) none ⊤ = none := by
              simp only [argminE, hfa]
            have e2 : foldMinM (fun a => mmVal g none player fuel true (g.result s a))
                (a :: rest) ⊤ = none := by
              simp only [foldMinM, hfa]
            rw [e1, e2]
          | some u =>
            have hult : u < ⊤ := mmVal_none_lt_top g player hne fuel true (g.result s a) u hfa
            have e1 : argminE (fun a => mmVal g none player fuel true (g.result s a))
                (a :: rest) none ⊤ =
                argminE (fun a => mmVal g none player fuel true (g.result s a))
                  rest (some a) u := by
              simp only [argminE, hfa, if_pos hult]
            have e2 : foldMinM (fun a => mmVal g none player fuel true (g.result s a))
                (a :: rest) ⊤ =
                foldMinM (fun a => mmVal g none player fuel true (g.result s a)) rest u := by
              simp only [foldMinM, hfa, min_eq_right (le_top : u ≤ ⊤)]
            rw [e1, e2]
            rcases argminE_foldMinM (fun a => mmVal g none player fuel true (g.result s a))
                rest a u hfa with ⟨ha1, ha2⟩ | ⟨c, w, hc1, hc2, hc3⟩
            · rw [ha1, ha2]
            · rw [hc1, hc2]
              exact hc3

/-- Claim C2: for every conforming game model (no non-terminal state has an
empty action set), every state, every player and any fuel,
`minimax_decision` with an `OptimalAdversary` returns exactly what it
returns with no adversary — the optimal adversary's explicit minimization
over evaluator scores reproduces the built-in true-minimization branch,
including first-seen tie-breaking. -/
theorem optimal_adversary_degeneracy (g : Game σ α π) (player : π)
    (fuel : ℕ) (s : σ)
    (hne : ∀ t, g.is_terminal t = false → g.actions t ≠ []) :
    minimax_decision g player (some OptimalAdversary) fuel s =
    minimax_decision g player none fuel s := by
  cases fuel with
  | zero => rfl
  | succ fuel =>
    show (mmRootLoop (fun a => mmVal g (some OptimalAdversary) player fuel false (g.result s a))
        (g.actions s) ⊥ none).map (fun p => p.2) =
      (mmRootLoop (fun a => mmVal g none player fuel false (g.result s a))
        (g.actions s) ⊥ none).map (fun p => p.2)
    have hfun : (fun a => mmVal g (some OptimalAdversary) player fuel false (g.result s a)) =
        (fun a => mmVal g none player fuel false (g.result s a)) :=
      funext fun a => mmVal_optimal_eq_none g player hne fuel false (g.result s a)
    rw [hfun]

/-- Witness for claim C2 on the conforming take-one game. -/
theorem optimal_adversary_degeneracy_witness :
    minimax_decision simpleTakeOne Player.A (some OptimalAdversary) 4 (3, Player.A) =
    minimax_decision simpleTakeOne Player.A none 4 (3, Player.A) :=
  optimal_adversary_degeneracy simpleTakeOne Player.A 4 (3, Player.A)
    (by
      intro t h
      simp only [simpleTakeOne] at h ⊢
      simp [h])

/-!
## Tie-break determinism

Both root loops keep the incumbent on a tie (`strict >`), so the action
they return is the first one in enumeration order achieving the best
value.  `refRootLoop_spec` characterises the pure sweep; the fallible root
loop of `minimax_decision` is reduced to it.
-/

theorem refRootLoop_spec (tval : α → EV) :
    ∀ (l : List α) (bv : EV) (ba : Option α),
      bv ≤ (refRootLoop tval l bv ba).1 ∧
      (∀ a ∈ l, tval a ≤ (refRootLoop tval l bv ba).1) ∧
      (((refRootLoop tval l bv ba).1 = bv ∧ (refRootLoop tval l bv ba).2 = ba) ∨
        ∃ l₁ b l₂, l = l₁ ++ b :: l₂ ∧ (refRootLoop tval l bv ba).2 = some b ∧
          tval b = (refRootLoop tval l bv ba).1 ∧ bv < (refRootLoop tval l bv ba).1 ∧
          ∀ a ∈ l₁, tval a < (refRootLoop tval l bv ba).1) := by
  intro l
  induction l with
  | nil =>
    intro bv ba
    exact ⟨le_refl _, by simp, Or.inl ⟨rfl, rfl⟩⟩
  | cons a rest ih =>
    intro bv ba
    by_cases hgt : tval a > bv
    · have heq : refRootLoop tval (a :: rest) bv ba =
          refRootLoop tval rest (tval a) (some a) := by
        simp only [refRootLoop, if_pos hgt]
      rw [heq]
      obtain ⟨iha, ihb, ihc⟩ := ih (tval a) (some a)
      refine ⟨le_of_lt (lt_of_lt_of_le hgt iha), ?_, ?_⟩
      · intro x hx
        rcases List.mem_cons.mp hx with rfl | hx'
        · exact iha
        · exact ihb x hx'
      · rcases ihc with ⟨h1, h2⟩ | ⟨l₁, b, l₂, hsplit, hm, htv, hlt, hall⟩
        · right
          refine ⟨[], a, rest, rfl, h2, h1.symm, h1.symm ▸ hgt,
            fun x hx => absurd hx (List.not_mem_nil x)⟩
        · right
          refine ⟨a :: l₁, b, l₂, by rw [hsplit]; rfl, hm, htv,
            lt_trans hgt hlt, ?_⟩
          intro x hx
          rcases List.mem_cons.mp hx with rfl | hx'
          · exact hlt
          · exact hall x hx'
    · have hle : tval a ≤ bv := not_lt.mp hgt
      have heq : refRootLoop tval (a :: rest) bv ba = refRootLoop tval rest bv ba := by
        simp only [refRootLoop, if_neg hgt]
      rw [heq]
      obtain ⟨iha, ihb, ihc⟩ := ih bv ba
      refine ⟨iha, ?_, ?_⟩
      · intro x hx
        rcases List.mem_cons.mp hx with rfl | hx'
        · exact le_trans hle iha
        · exact ihb x hx'
      · rcases ihc with hleft | ⟨l₁, b, l₂, hsplit, hm, htv, hlt, hall⟩
        · exact Or.inl hleft
        · right
          refine ⟨a :: l₁, b, l₂, by rw [hsplit]; rfl, hm, htv, hlt, ?_⟩
          intro x hx
          rcases List.mem_cons.mp hx with rfl | hx'
          · exact lt_of_le_of_lt hle hlt
          · exact hall x hx'

theorem mmRootLoop_some_forall (f : α → Option EV) :
    ∀ (l : List α) (bv : EV) (ba : Option α) (p : EV × Option α),
      mmRootLoop f l bv ba = some p → ∀ a ∈ l, ∃ u, f a = some u := by
  intro l
  induction l with
  | nil => intro bv ba p _ a ha; exact absurd ha (List.not_mem_nil a)
  | cons a rest ih =>
    intro bv ba p h x hx
    cases hfa : f a with
    | none =>
      simp only [mmRootLoop, hfa] at h
      exact absurd h (by simp)
    | some u =>
      simp only [mmRootLoop, hfa] at h
      rcases List.mem_cons.mp hx with rfl | hx'
      · exact ⟨u, hfa⟩
      · by_cases hgt : u > bv
        · rw [if_pos hgt] at h; exact ih _ _ _ h x hx'
        · rw [if_neg hgt] at h; exact ih _ _ _ h x hx'

/-- Claim C5: tie-break determinism: whenever either top-level search form
returns an action (its root value then necessarily exceeding the `-inf`
sentinel), that action is the first one in the game model's enumeration
order achieving the best root value; the strict `>` / `<` comparisons mean
a later action that only ties never replaces the incumbent. -/
theorem first_best_action (g : Game σ α π) (player : π) (fuel : ℕ) (s : σ)
    (adv : Option (Adversary σ α π)) (V : EV) (M : Option α) :
    (g.is_terminal s = false → ⊥ < V →
      max_value g player (fuel + 1) s ⊥ ⊤ = (V, M) →
      ∃ l₁ b l₂, g.actions s = l₁ ++ b :: l₂ ∧ M = some b ∧
        mval g player fuel false (g.result s b) = V ∧
        (∀ a ∈ l₁, mval g player fuel false (g.result s a) < V) ∧
        (∀ a ∈ g.actions s, mval g player fuel false (g.result s a) ≤ V)) ∧
    (⊥ < V → mmDecisionPair g player adv (fuel + 1) s = some (V, M) →
      ∃ l₁ b l₂, g.actions s = l₁ ++ b :: l₂ ∧ M = some b ∧
        mmMin g adv player fuel (g.result s b) = some V ∧
        (∀ a ∈ l₁, ∃ w, mmMin g adv player fuel (g.result s a) = some w ∧ w < V) ∧
        (∀ a ∈ g.actions s, ∃ w,
          mmMin g adv player fuel (g.result s a) = some w ∧ w ≤ V)) := by
  constructor
  · intro hterm hV hab
    have hterm' : ¬ g.is_terminal s = true := by simp [hterm]
    have hab' : refRootLoop (fun a => mval g player fuel false (g.result s a))
        (g.actions s) ⊥ none = (V, M) := by
      rw [← abVal_root_pair g player fuel s hterm']
      exact hab
    obtain ⟨iha, ihb, ihc⟩ := refRootLoop_spec
      (fun a => mval g player fuel false (g.result s a)) (g.actions s) ⊥ none
    rw [hab'] at iha ihb ihc
    rcases ihc with ⟨h1, _⟩ | ⟨l₁, b, l₂, hsplit, hm, htv, _, hall⟩
    · exact absurd h1 (ne_of_gt hV)
    · exact ⟨l₁, b, l₂, hsplit, hm, htv, hall, ihb⟩
  · intro hV hmm
    have hsucc := mmRootLoop_some_forall
      (fun a => mmMin g adv player fuel (g.result s a)) (g.actions s) ⊥ none (V, M) hmm
    have hpt : ∀ (a : α) (u : EV),
        mmMin g adv player fuel (g.result s a) = some u →
        u = (mmMin g adv player fuel (g.result s a)).getD ⊥ := by
      intro a u hu
      rw [hu]
      rfl
    have heq := mmRootLoop_some_eq
      (fun a => mmMin g adv player fuel (g.result s a))
      (fun a => (mmMin g adv player fuel (g.result s a)).getD ⊥)
      hpt (g.actions s) ⊥ none (V, M) hmm
    obtain ⟨iha, ihb, ihc⟩ := refRootLoop_spec
      (fun a => (mmMin g adv player fuel (g.result s a)).getD ⊥) (g.actions s) ⊥ none
    rw [← heq] at iha ihb ihc
    rcases ihc with ⟨h1, _⟩ | ⟨l₁, b, l₂, hsplit, hm, htv, _, hall⟩
    · exact absurd h1 (ne_of_gt hV)
    · have hbmem : b ∈ g.actions s := by
        rw [hsplit]
        exact List.mem_append_right _ (List.mem_cons_self b l₂)
      obtain ⟨ub, hub⟩ := hsucc b hbmem
      have hubV : ub = V := (hpt b ub hub).trans htv
      refine ⟨l₁, b, l₂, hsplit, hm, by rw [← hubV]; exact hub, ?_, ?_⟩
      · intro x hx
        have hxmem : x ∈ g.actions s := by
          rw [hsplit]
          exact List.mem_append_left _ hx
        obtain ⟨ux, hux⟩ := hsucc x hxmem
        refine ⟨ux, hux, ?_⟩
        rw [hpt x ux hux]
        exact hall x hx
      · intro x hx
        obtain ⟨ux, hux⟩ := hsucc x hx
        refine ⟨ux, hux, ?_⟩
        rw [hpt x ux hux]
        exact ihb x hx

/-- Witness for claim C5 at the demonstration game's initial state: both
forms pick action 3, the first (and only) action achieving the best value
`+1`, with the earlier actions 1 and 2 scoring strictly worse. -/
theorem first_best_action_witness :
    (∃ l₁ b l₂, (NimGame 3).actions (7, Player.A) = l₁ ++ b :: l₂ ∧
      (some 3 : Option ℤ) = some b ∧
      mval (NimGame 3) Player.A 7 false ((NimGame 3).result (7, Player.A) b) = evOf 1 ∧
      (∀ a ∈ l₁,
        mval (NimGame 3) Player.A 7 false ((NimGame 3).result (7, Player.A) a) < evOf 1) ∧
      (∀ a ∈ (NimGame 3).actions (7, Player.A),
        mval (NimGame 3) Player.A 7 false ((NimGame 3).result (7, Player.A) a) ≤ evOf 1)) ∧
    (∃ l₁ b l₂, (NimGame 3).actions (7, Player.A) = l₁ ++ b :: l₂ ∧
      (some 3 : Option ℤ) = some b ∧
      mmMin (NimGame 3) none Player.A 7 ((NimGame 3).result (7, Player.A) b) =
        some (evOf 1) ∧
      (∀ a ∈ l₁, ∃ w, mmMin (NimGame 3) none Player.A 7
        ((NimGame 3).result (7, Player.A) a) = some w ∧ w < evOf 1) ∧
      (∀ a ∈ (NimGame 3).actions (7, Player.A), ∃ w,
        mmMin (NimGame 3) none Player.A 7 ((NimGame 3).result (7, Player.A) a) =
          some w ∧ w ≤ evOf 1)) := by
  obtain ⟨h1, h2⟩ :=
    first_best_action (NimGame 3) Player.A 7 (7, Player.A) none (evOf 1) (some 3)
  exact ⟨h1 (by decide) (by decide) (by decide), h2 (by decide) (by decide)⟩

/-!
## Termination on the demonstration game

Every action of the demonstration game strictly decreases the token
count, so the recursion depth is bounded by the token count: the fueled
embeddings never reach their exhaustion case once the fuel exceeds that
bound.  For the (total) alpha-beta engine this is expressed as fuel
stability, for the (fallible) adversary-parameterized engine as success.
-/

theorem nim_actions_mem (max_take : ℤ) (s : ℤ × Player) (a : ℤ) :
    a ∈ nim_actions max_take s ↔ 1 ≤ a ∧ a ≤ min max_take s.1 := by
  simp only [nim_actions, List.mem_map, List.mem_range]
  constructor
  · rintro ⟨i, hi, rfl⟩
    have hi' : (i : ℤ) < min max_take s.1 := Int.lt_toNat.mp hi
    omega
  · rintro ⟨h1, h2⟩
    refine ⟨(a - 1).toNat, Int.lt_toNat.mpr ?_, ?_⟩
    · rw [Int.toNat_of_nonneg (by omega : (0 : ℤ) ≤ a - 1)]
      omega
    · show ((a - 1).toNat : ℤ) + 1 = a
      rw [Int.toNat_of_nonneg (by omega : (0 : ℤ) ≤ a - 1)]
      omega

theorem maxLoop_congr (child₁ child₂ : EV → α → EV) (beta : EV) :
    ∀ (acts : List α) (alpha v : EV) (best : Option α),
      (∀ (w : EV) (a : α), a ∈ acts → child₁ w a = child₂ w a) →
      maxLoop child₁ beta acts alpha v best = maxLoop child₂ beta acts alpha v best := by
  intro acts
  induction acts with
  | nil => intro alpha v best _; rfl
  | cons a rest ih =>
    intro alpha v best h
    simp only [maxLoop, h alpha a (List.mem_cons_self a rest)]
    by_cases hcut : beta ≤ (if child₂ alpha a > v then child₂ alpha a else v)
    · simp only [if_pos hcut]
    · simp only [if_neg hcut]
      exact ih _ _ _ (fun w x hx => h w x (List.mem_cons_of_mem a hx))

theorem minLoop_congr (child₁ child₂ : EV → α → EV) (alpha : EV) :
    ∀ (acts : List α) (beta v : EV) (best : Option α),
      (∀ (w : EV) (a : α), a ∈ acts → child₁ w a = child₂ w a) →
      minLoop child₁ alpha acts beta v best = minLoop child₂ alpha acts beta v best := by
  intro acts
  induction acts with
  | nil => intro beta v best _; rfl
  | cons a rest ih =>
    intro beta v best h
    simp only [minLoop, h beta a (List.mem_cons_self a rest)]
    by_cases hcut : (if child₂ beta a < v then child₂ beta a else v) ≤ alpha
    · simp only [if_pos hcut]
    · simp only [if_neg hcut]
      exact ih _ _ _ (fun w x hx => h w x (List.mem_cons_of_mem a hx))

/-- Beyond the token-count depth bound, the alpha-beta evaluation of a
demonstration-game state does not depend on the fuel. -/
theorem nim_abVal_fuel_stable (pl : Player) :
    ∀ (n : ℕ) (t : ℤ) (q : Player), t.toNat ≤ n →
      ∀ (fuel₁ fuel₂ : ℕ), n < fuel₁ → n < fuel₂ →
        ∀ (isMax : Bool) (alpha beta : EV),
          abVal (NimGame 3) pl fuel₁ isMax (t, q) alpha beta =
          abVal (NimGame 3) pl fuel₂ isMax (t, q) alpha beta := by
  intro n
  induction n with
  | zero =>
    intro t q ht fuel₁ fuel₂ h1 h2 isMax alpha beta
    obtain ⟨m₁, rfl⟩ : ∃ m, fuel₁ = m + 1 := ⟨fuel₁ - 1, by omega⟩
    obtain ⟨m₂, rfl⟩ : ∃ m, fuel₂ = m + 1 := ⟨fuel₂ - 1, by omega⟩
    by_cases hterm : (NimGame 3).is_terminal (t, q) = true
    · rw [abVal_term (NimGame 3) pl m₁ isMax (t, q) alpha beta hterm,
        abVal_term (NimGame 3) pl m₂ isMax (t, q) alpha beta hterm]
    · have hne : t ≠ 0 := by simpa [NimGame] using hterm
      have hacts : (NimGame 3).actions (t, q) = [] := by
        show nim_actions 3 (t, q) = []
        simp only [nim_actions]
        have he : (min (3 : ℤ) t).toNat = 0 := by omega
        rw [he]
        rfl
      cases isMax with
      | true =>
        rw [abVal_max_step (NimGame 3) pl m₁ (t, q) alpha beta hterm,
          abVal_max_step (NimGame 3) pl m₂ (t, q) alpha beta hterm, hacts]
        rfl
      | false =>
        rw [abVal_min_step (NimGame 3) pl m₁ (t, q) alpha beta hterm,
          abVal_min_step (NimGame 3) pl m₂ (t, q) alpha beta hterm, hacts]
        rfl
  | succ n ih =>
    intro t q ht fuel₁ fuel₂ h1 h2 isMax alpha beta
    obtain ⟨m₁, rfl⟩ : ∃ m, fuel₁ = m + 1 := ⟨fuel₁ - 1, by omega⟩
    obtain ⟨m₂, rfl⟩ : ∃ m, fuel₂ = m + 1 := ⟨fuel₂ - 1, by omega⟩
    by_cases hterm : (NimGame 3).is_terminal (t, q) = true
    · rw [abVal_term (NimGame 3) pl m₁ isMax (t, q) alpha beta hterm,
        abVal_term (NimGame 3) pl m₂ isMax (t, q) alpha beta hterm]
    · cases isMax with
      | true =>
        rw [abVal_max_step (NimGame 3) pl m₁ (t, q) alpha beta hterm,
          abVal_max_step (NimGame 3) pl m₂ (t, q) alpha beta hterm]
        apply maxLoop_congr
        intro w a ha
        obtain ⟨hm1, hm2⟩ : 1 ≤ a ∧ a ≤ min 3 t := (nim_actions_mem 3 (t, q) a).mp ha
        have e : (NimGame 3).result (t, q) a =
            (t - a, if q = Player.A then Player.B else Player.A) := rfl
        show (abVal (NimGame 3) pl m₁ false ((NimGame 3).result (t, q) a) w beta).1 =
          (abVal (NimGame 3) pl m₂ false ((NimGame 3).result (t, q) a) w beta).1
        rw [e, ih (t - a) (if q = Player.A then Player.B else Player.A) (by omega)
          m₁ m₂ (by omega) (by omega) false w beta]
      | false =>
        rw [abVal_min_step (NimGame 3) pl m₁ (t, q) alpha beta hterm,
          abVal_min_step (NimGame 3) pl m₂ (t, q) alpha beta hterm]
        apply minLoop_congr
        intro w a ha
        obtain ⟨hm1, hm2⟩ : 1 ≤ a ∧ a ≤ min 3 t := (nim_actions_mem 3 (t, q) a).mp ha
        have e : (NimGame 3).result (t, q) a =
            (t - a, if q = Player.A then Player.B else Player.A) := rfl
        show (abVal (NimGame 3) pl m₁ true ((NimGame 3).result (t, q) a) alpha w).1 =
          (abVal (NimGame 3) pl m₂ true ((NimGame 3).result (t, q) a) alpha w).1
        rw [e, ih (t - a) (if q = Player.A then Player.B else Player.A) (by omega)
          m₁ m₂ (by omega) (by omega) true alpha w]

theorem foldMaxM_isSome (f : α → Option EV) :
    ∀ (l : List α) (v : EV), (∀ a ∈ l, ∃ u, f a = some u) →
      ∃ w, foldMaxM f l v = some w := by
  intro l
  induction l with
  | nil => intro v _; exact ⟨v, rfl⟩
  | cons a rest ih =>
    intro v h
    obtain ⟨u, hu⟩ := h a (List.mem_cons_self a rest)
    simp only [foldMaxM, hu]
    exact ih (max v u) (fun x hx => h x (List.mem_cons_of_mem a hx))

theorem foldMinM_isSome (f : α → Option EV) :
    ∀ (l : List α) (v : EV), (∀ a ∈ l, ∃ u, f a = some u) →
      ∃ w, foldMinM f l v = some w := by
  intro l
  induction l with
  | nil => intro v _; exact ⟨v, rfl⟩
  | cons a rest ih =>
    intro v h
    obtain ⟨u, hu⟩ := h a (List.mem_cons_self a rest)
    simp only [foldMinM, hu]
    exact ih (min v u) (fun x hx => h x (List.mem_cons_of_mem a hx))

theorem mmRootLoop_isSome (f : α → Option EV) :
    ∀ (l : List α) (bv : EV) (ba : Option α), (∀ a ∈ l, ∃ u, f a = some u) →
      ∃ p, mmRootLoop f l bv ba = some p := by
  intro l
  induction l with
  | nil => intro bv ba _; exact ⟨(bv, ba), rfl⟩
  | cons a rest ih =>
    intro bv ba h
    obtain ⟨u, hu⟩ := h a (List.mem_cons_self a rest)
    simp only [mmRootLoop, hu]
    by_cases hgt : u > bv
    · rw [if_pos hgt]
      exact ih u (some a) (fun x hx => h x (List.mem_cons_of_mem a hx))
    · rw [if_neg hgt]
      exact ih bv ba (fun x hx => h x (List.mem_cons_of_mem a hx))

/-- With fuel exceeding the token count, the adversary-free nested
evaluators on the demonstration game always return normally. -/
theorem nim_mmVal_some (pl : Player) :
    ∀ (n : ℕ) (t : ℤ) (q : Player), 0 ≤ t → t.toNat ≤ n →
      ∀ (fuel : ℕ), n < fuel → ∀ (isMax : Bool),
        ∃ w, mmVal (NimGame 3) none pl fuel isMax (t, q) = some w := by
  intro n
  induction n with
  | zero =>
    intro t q ht0 ht fuel hf isMax
    obtain ⟨m, rfl⟩ : ∃ m, fuel = m + 1 := ⟨fuel - 1, by omega⟩
    have ht' : t = 0 := by omega
    subst ht'
    rw [mmVal_term (NimGame 3) none pl m isMax (0, q) rfl]
    exact ⟨_, rfl⟩
  | succ n ih =>
    intro t q ht0 ht fuel hf isMax
    obtain ⟨m, rfl⟩ : ∃ m, fuel = m + 1 := ⟨fuel - 1, by omega⟩
    by_cases hterm : (NimGame 3).is_terminal (t, q) = true
    · rw [mmVal_term (NimGame 3) none pl m isMax (t, q) hterm]
      exact ⟨_, rfl⟩
    · cases isMax with
      | true =>
        rw [mmVal_max_step (NimGame 3) none pl m (t, q) hterm]
        apply foldMaxM_isSome
        intro a ha
        obtain ⟨hm1, hm2⟩ : 1 ≤ a ∧ a ≤ min 3 t := (nim_actions_mem 3 (t, q) a).mp ha
        have e : (NimGame 3).result (t, q) a =
            (t - a, if q = Player.A then Player.B else Player.A) := rfl
        rw [e]
        exact ih (t - a) (if q = Player.A then Player.B else Player.A)
          (by omega) (by omega) m (by omega) false
      | false =>
        rw [mmVal_min_none_step (NimGame 3) pl m (t, q) hterm]
        apply foldMinM_isSome
        intro a ha
        obtain ⟨hm1, hm2⟩ : 1 ≤ a ∧ a ≤ min 3 t := (nim_actions_mem 3 (t, q) a).mp ha
        have e : (NimGame 3).result (t, q) a =
            (t - a, if q = Player.A then Player.B else Player.A) := rfl
        rw [e]
        exact ih (t - a) (if q = Player.A then Player.B else Player.A)
          (by omega) (by omega) m (by omega) true

/-- Claim C8: for the demonstration game (every action strictly decreases
the token count, terminal at zero) both searches terminate from any state
with a non-negative token count, with recursion depth bounded by the depth
of the action tree: `minimax_decision` runs to completion with fuel
`tokens + 1`, and the alpha-beta evaluation (value and move, hence also
`alpha_beta_search`) is unchanged by any fuel beyond that bound — its
recursion never reaches the exhaustion case. -/
theorem nim_search_terminates (t : ℤ) (pl : Player) (ht : 0 ≤ t) :
    (∃ m, minimax_decision (NimGame 3) pl none (t.toNat + 1) (t, pl) = some m) ∧
    (∀ fuel, t.toNat + 1 ≤ fuel →
      max_value (NimGame 3) pl fuel (t, pl) ⊥ ⊤ =
      max_value (NimGame 3) pl (t.toNat + 1) (t, pl) ⊥ ⊤) ∧
    (∀ fuel, t.toNat + 1 ≤ fuel →
      alpha_beta_search (NimGame 3) fuel (t, pl) =
      alpha_beta_search (NimGame 3) (t.toNat + 1) (t, pl)) := by
  have hstable : ∀ fuel, t.toNat + 1 ≤ fuel →
      max_value (NimGame 3) pl fuel (t, pl) ⊥ ⊤ =
      max_value (NimGame 3) pl (t.toNat + 1) (t, pl) ⊥ ⊤ := by
    intro fuel hfuel
    exact nim_abVal_fuel_stable pl t.toNat t pl (le_refl _) fuel (t.toNat + 1)
      (by omega) (by omega) true ⊥ ⊤
  refine ⟨?_, hstable, ?_⟩
  · have hsucc : ∀ a ∈ (NimGame 3).actions (t, pl), ∃ u,
        mmMin (NimGame 3) none pl t.toNat ((NimGame 3).result (t, pl) a) = some u := by
      intro a ha
      obtain ⟨hm1, hm2⟩ : 1 ≤ a ∧ a ≤ min 3 t := (nim_actions_mem 3 (t, pl) a).mp ha
      have e : (NimGame 3).result (t, pl) a =
          (t - a, if pl = Player.A then Player.B else Player.A) := rfl
      rw [e]
      exact nim_mmVal_some pl (t - a).toNat (t - a)
        (if pl = Player.A then Player.B else Player.A)
        (by omega) (le_refl _) t.toNat (by omega) false
    obtain ⟨p, hp⟩ := mmRootLoop_isSome
      (fun a => mmMin (NimGame 3) none pl t.toNat ((NimGame 3).result (t, pl) a))
      ((NimGame 3).actions (t, pl)) ⊥ none hsucc
    refine ⟨p.2, ?_⟩
    show (mmRootLoop (fun a => mmMin (NimGame 3) none pl t.toNat
      ((NimGame 3).result (t, pl) a)) ((NimGame 3).actions (t, pl)) ⊥ none).map
        (fun p => p.2) = some p.2
    rw [hp]
    rfl
  · intro fuel hfuel
    show (max_value (NimGame 3) pl fuel (t, pl) ⊥ ⊤).2 =
      (max_value (NimGame 3) pl (t.toNat + 1) (t, pl) ⊥ ⊤).2
    rw [hstable fuel hfuel]

/-- Witness for claim C8 at 5 tokens: the adversary-free decision
completes with fuel 6, and extra fuel does not change the pruning
search. -/
theorem nim_search_terminates_witness :
    (∃ m, minimax_decision (NimGame 3) Player.A none 6 (5, Player.A) = some m) ∧
    alpha_beta_search (NimGame 3) 9 (5, Player.A) =
      alpha_beta_search (NimGame 3) 6 (5, Player.A) :=
  ⟨(nim_search_terminates 5 Player.A (by decide)).1,
   (nim_search_terminates 5 Player.A (by decide)).2.2 9 (by decide)⟩

end GameSearch
